import Mathlib

/-!
# A shallow embedding of the Sudoku solver in `main.py`

The Python program is a single class `SudokuSolver` built over a fixed 9x9
topology (`CELLS`, `ROW_UNITS`, `COL_UNITS`, `BOX_UNITS`, `UNITS`, `PEERS`,
main.py lines 4-17).  The mutable state is `self.values`, a mapping from the
81 cells to candidate sets of digits.  We embed the state as a function from
`Fin 81` to `Finset Nat` and every method as a Lean function on that state.
Python's recursive `assign`/`eliminate` pair is embedded with an explicit
fuel parameter; running out of fuel is a distinguished outcome (`ERes.out`)
that the Python original, which just recurses, never exhibits, so theorems
either quantify over all fuels or assume enough fuel (concrete bounds are
proved sufficient in `elim_noOut` and `assign_noOut` below).

Python `set` iteration order is unspecified; wherever the source iterates
over a set (`list(other)` in `assign`, `for d in Digits`, `PEERS[cell]`) the
embedding uses ascending numeric order, and where it iterates over a dict in
insertion order the embedding reproduces that order explicitly.
-/

set_option maxRecDepth 40000

namespace SudokuPy

/-- `Digits = set("123456789")` (main.py line 4), as numeric digit values. -/
def Digits : Finset Nat := {1, 2, 3, 4, 5, 6, 7, 8, 9}

/-- The digits in ascending order; the canonical iteration order used for
Python's `for d in Digits`. -/
def digitsList : List Nat := [1, 2, 3, 4, 5, 6, 7, 8, 9]

/-- A cell of the grid.  `CELLS = cross(ROWS, COLS)` (main.py line 11) lists
the 81 cell names in row-major order ("A1", "A2", ..., "I9"); we index them
0..80 in that same order, so cell "A1" is 0 and "I9" is 80. -/
abbrev Cell := Fin 81

/-- Row index 0..8 of a cell (the letter part of the Python cell name). -/
def rowOf (c : Cell) : Nat := c.val / 9

/-- Column index 0..8 of a cell (the digit part of the Python cell name,
minus one). -/
def colOf (c : Cell) : Nat := c.val % 9

/-- Box index 0..8 of a cell, in the order the source builds `BOX_UNITS`
(main.py line 15): boxes "ABC123", "ABC456", ..., "GHI789". -/
def boxOf (c : Cell) : Nat := 3 * (rowOf c / 3) + colOf c / 3

/-- `CELLS` (main.py line 11), in row-major order. -/
def allCells : List Cell := List.finRange 81

/-- `ROW_UNITS = [cross(r, COLS) for r in ROWS]` (main.py line 13).  Each
row unit lists its cells in ascending index order, exactly as `cross` does. -/
def ROW_UNITS : List (List Cell) :=
  (List.range 9).map (fun r => allCells.filter (fun c => decide (rowOf c = r)))

/-- `COL_UNITS = [cross(ROWS, c) for c in COLS]` (main.py line 14). -/
def COL_UNITS : List (List Cell) :=
  (List.range 9).map (fun k => allCells.filter (fun c => decide (colOf c = k)))

/-- `BOX_UNITS` (main.py line 15), in the source's box order, each box
listing its cells in row-major order as `cross` does. -/
def BOX_UNITS : List (List Cell) :=
  (List.range 9).map (fun k => allCells.filter (fun c => decide (boxOf c = k)))

/-- All 27 units in the order `ROW_UNITS + COL_UNITS + BOX_UNITS` used
throughout the source. -/
def allUnits : List (List Cell) := ROW_UNITS ++ COL_UNITS ++ BOX_UNITS

/-- `UNITS = {s: [u for u in (ROW_UNITS + COL_UNITS + BOX_UNITS) if s in u]
for s in CELLS}` (main.py line 16). -/
def unitsOf (c : Cell) : List (List Cell) := allUnits.filter (fun u => decide (c ∈ u))

/-- `PEERS = {s: set(sum(UNITS[s], [])) - {s} for s in CELLS}` (main.py
line 17).  The Python value is a set with unspecified iteration order; we
list the same 20 cells in ascending index order. -/
def peersOf (c : Cell) : List Cell :=
  allCells.filter (fun p => decide (p ≠ c ∧ p ∈ (unitsOf c).foldr (· ++ ·) []))

/-- The board state `self.values : Dict[str, Set[str]]` (main.py line 25):
one candidate set per cell, always 81 entries. -/
abbrev Board := Cell → Finset Nat

/-- The freshly initialised board `{s: set(Digits) for s in CELLS}`
(main.py line 25). -/
def blankB : Board := fun _ => Digits

/-- List a finite set of naturals in ascending order by repeatedly
extracting the minimum.  (`Finset.sort` exists but does not reduce inside
the kernel; this explicit version does, so concrete runs of the embedding
can be checked by `decide`.)  It fixes the unspecified iteration order of a
Python set at ascending order. -/
def ascListGo : Nat → Finset Nat → List Nat
  | 0, _ => []
  | (n + 1), s =>
    match s.min with
    | none => []
    | some m => m :: ascListGo n (s.erase m)

/-- The elements of `s` in ascending order. -/
def ascList (s : Finset Nat) : List Nat := ascListGo s.card s

/-- `next(iter(s))` on a Python set known to be a singleton: the unique
element.  (Defined totally with a default of 0; we only use it at
singletons.) -/
def only (s : Finset Nat) : Nat := (ascList s).headD 0

/-- Result of `eliminate`/`assign` (main.py lines 43-70): the Python methods
return a bool and mutate `self.values`.  `ok b` is a `True` return with the
mutated state, `fail` a `False` return (after a failed return the caller
never reads the state: `propagate_all` returns immediately and `search`
restores a snapshot, so the embedding drops the garbage state), and `out`
is fuel exhaustion, an artifact of the embedding. -/
inductive ERes where
  | out
  | fail
  | ok (b : Board)
deriving DecidableEq

/-- `some b` iff the result is a successful return with state `b`. -/
def ERes.board? : ERes → Option Board
  | .ok b => some b
  | _ => none

/-- `true` iff the result is a `False` (contradiction) return. -/
def ERes.isFail : ERes → Bool
  | .fail => true
  | _ => false

/-- A sequence of `eliminate` calls threading the board and stopping at the
first failure: the peer loop of `eliminate` (main.py lines 59-61) and the
`all(self.eliminate(cell, d2) for d2 in list(other))` of `assign` (line 46)
are both instances.  `el` is the eliminate function for the current
recursion depth. -/
def elimSeqF (el : Board → Cell → Nat → ERes) : Board → List (Cell × Nat) → ERes
  | b, [] => .ok b
  | b, (c, d) :: rest =>
    match el b c d with
    | .out => .out
    | .fail => .fail
    | .ok b' => elimSeqF el b' rest

/-- The body of `SudokuSolver.assign` (main.py lines 43-46):

    other = self.values[cell] - {d}
    return all(self.eliminate(cell, d2) for d2 in list(other))

`list(other)` is a snapshot taken before the eliminations run; its Python
order is unspecified, embedded as ascending order. -/
def assignF (el : Board → Cell → Nat → ERes) (b : Board) (c : Cell) (d : Nat) : ERes :=
  elimSeqF el b ((ascList ((b c).erase d)).map (fun d2 => (c, d2)))

/-- The `for unit in UNITS[cell]` loop of `eliminate` (main.py lines
63-69): `places` is recomputed from the current state at each unit; `asg`
is the assign function for the current recursion depth. -/
def unitLoopF (asg : Board → Cell → Nat → ERes) : Board → List (List Cell) → Nat → ERes
  | b, [], _ => .ok b
  | b, u :: us, d =>
    match u.filter (fun s => decide (d ∈ b s)) with
    | [] => .fail
    | [s0] =>
      match asg b s0 d with
      | .out => .out
      | .fail => .fail
      | .ok b' => unitLoopF asg b' us d
    | _ :: _ :: _ => unitLoopF asg b us d

/-- `SudokuSolver.eliminate` (main.py lines 48-70):

    if d not in self.values[cell]: return True
    self.values[cell].remove(d)
    if len(self.values[cell]) == 0: return False
    if len(self.values[cell]) == 1:
        d2 = next(iter(self.values[cell]))
        for p in PEERS[cell]:
            if not self.eliminate(p, d2): return False
    for unit in UNITS[cell]:
        places = [s for s in unit if d in self.values[s]]
        if len(places) == 0: return False
        if len(places) == 1:
            if not self.assign(places[0], d): return False
    return True

The Python recursion is unbounded; the embedding recurses structurally on a
fuel count, the nested calls (peer eliminations, and `assign` from the
hidden-single check) running one level down. -/
def eliminate : Nat → Board → Cell → Nat → ERes
  | 0, _, _, _ => .out
  | (n + 1), b, c, d =>
    if d ∈ b c then
      let b1 : Board := Function.update b c ((b c).erase d)
      if (b1 c).card = 0 then .fail
      else
        let r1 : ERes :=
          if (b1 c).card = 1 then
            elimSeqF (eliminate n) b1 ((peersOf c).map (fun p => (p, only (b1 c))))
          else .ok b1
        match r1 with
        | .out => .out
        | .fail => .fail
        | .ok b2 => unitLoopF (assignF (eliminate n)) b2 (unitsOf c) d
    else .ok b

/-- `SudokuSolver.assign` (main.py lines 43-46): the wrapper putting a fuel
level around `assignF`. -/
def assign : Nat → Board → Cell → Nat → ERes
  | 0, _, _, _ => .out
  | (n + 1), b, c, d => assignF (eliminate n) b c d

/-! ## The strategy pass (main.py lines 73-197) -/

/-- Result of a strategy that can fail (`hidden_singles`): `ok b changed` is
a normal return of the Python bool `changed` with state `b`; `fail` is the
early `return False` on a failed `assign`.  Note `propagate_all` cannot tell
`fail` from `ok b false`: both are the Python value `False`. -/
inductive SRes where
  | out
  | fail
  | ok (b : Board) (changed : Bool)
deriving DecidableEq

/-- The `(unit, digit)` pairs scanned by `hidden_singles` (main.py lines
170-171), in source order: units in `ROW_UNITS + COL_UNITS + BOX_UNITS`
order, digits in ascending order (Python iterates the set `Digits`). -/
def hsPairs : List (List Cell × Nat) :=
  (allUnits.map (fun u => digitsList.map (fun d => (u, d)))).flatten

/-- The loop body of `hidden_singles` (main.py lines 169-177): for each
`(unit, d)`, if exactly one cell of the unit still holds `d`, assign it
there; a failed assign returns `False` at once, otherwise set `changed`. -/
def hsGo : Nat → Board → Bool → List (List Cell × Nat) → SRes
  | _, b, ch, [] => .ok b ch
  | n, b, ch, (u, d) :: rest =>
    match u.filter (fun s => decide (d ∈ b s)) with
    | [s0] =>
      match assign n b s0 d with
      | .out => .out
      | .fail => .fail
      | .ok b' => hsGo n b' true rest
    | _ => hsGo n b ch rest

/-- `SudokuSolver.hidden_singles` (main.py lines 167-177). -/
def hiddenSingles (n : Nat) (b : Board) : SRes := hsGo n b false hsPairs

/-- Deduplication keeping the first occurrence: the key order of the Python
`defaultdict` built by `naked_pairs` (keys appear in insertion order). -/
def firstDedup : List (Finset Nat) → List (Finset Nat)
  | [] => []
  | x :: xs => x :: (firstDedup xs).filter (fun y => decide (y ≠ x))

/-- The `pairs` dict of `naked_pairs` at one unit (main.py lines 77-80), as
an association list in insertion order: each two-candidate set of the unit,
with the unit cells currently holding exactly that set. -/
def npUnitKeys (b : Board) (unit : List Cell) : List (Finset Nat × List Cell) :=
  (firstDedup ((unit.filter (fun s => decide ((b s).card = 2))).map (fun s => b s))).map
    (fun k => (k, unit.filter (fun s => decide (b s = k))))

/-- The elimination pass of `naked_pairs` over one unit for one locked pair
(main.py lines 83-89): remove `candset` from every other cell of the unit;
a cell driven empty returns `False` for the whole strategy. -/
def npCellsElim (candset : Finset Nat) (cells : List Cell) :
    Board → Bool → List Cell → Option (Board × Bool)
  | b, ch, [] => some (b, ch)
  | b, ch, s :: rest =>
    if s ∉ cells ∧ (b s ∩ candset).Nonempty then
      let before := (b s).card
      let b' : Board := Function.update b s (b s \ candset)
      if (b' s).card = 0 then none
      else npCellsElim candset cells b' (ch || decide ((b' s).card ≠ before)) rest
    else npCellsElim candset cells b ch rest

/-- The `for candset, cells in pairs.items()` loop of `naked_pairs`
(main.py lines 81-89). -/
def npKeysElim (unit : List Cell) :
    Board → Bool → List (Finset Nat × List Cell) → Option (Board × Bool)
  | b, ch, [] => some (b, ch)
  | b, ch, (candset, cells) :: rest =>
    if cells.length = 2 then
      match npCellsElim candset cells b ch unit with
      | none => none
      | some (b', ch') => npKeysElim unit b' ch' rest
    else npKeysElim unit b ch rest

/-- The outer unit loop of `naked_pairs` (main.py line 76); the `pairs`
dict is rebuilt from the current state at each unit. -/
def npUnits : Board → Bool → List (List Cell) → Option (Board × Bool)
  | b, ch, [] => some (b, ch)
  | b, ch, u :: us =>
    match npKeysElim u b ch (npUnitKeys b u) with
    | none => none
    | some (b', ch') => npUnits b' ch' us

/-- `SudokuSolver.naked_pairs` (main.py lines 73-90): `none` is the
`return False` on a cell driven empty, `some (b, changed)` the normal
return of `changed`. -/
def nakedPairs (b : Board) : Option (Board × Bool) := npUnits b false allUnits

/-- The `rows[(r, d)]` entry built by the first loop of `pointing_pairs`
(main.py lines 100-106): the cells of `box` on row `r` currently holding
candidate `d`. -/
def ppRowEntry (b : Board) (box : List Cell) (r d : Nat) : List Cell :=
  box.filter (fun s => decide (rowOf s = r) && decide (d ∈ b s))

/-- Whether the `for (r, d), cells in rows.items()` loop of `pointing_pairs`
(main.py lines 108-112) reaches its body for some entry of `box`: an entry
with 1 to 3 cells.  When it does, line 112 evaluates
`next(u for u in UNITS[cells[0]] if ... and len(set(u) & set(box)) == 0)`;
every unit of `cells[0]` contains `cells[0]`, which is in `box`, so the
generator is empty and `next` raises `StopIteration`. -/
def boxTrigger (b : Board) (box : List Cell) : Bool :=
  (List.range 9).any (fun r => digitsList.any (fun d =>
    let len := (ppRowEntry b box r d).length
    decide (1 ≤ len) && decide (len ≤ 3)))

/-- The elimination loop shared by the box-line reductions (main.py lines
130-133 and 154-164): walk a row or column, removing `d` from cells outside
the box; `changed` is set on every removal. -/
def ppLineElim (box : List Cell) (d : Nat) : Board → Bool → List Cell → Board × Bool
  | b, ch, [] => (b, ch)
  | b, ch, s :: rest =>
    if s ∉ box ∧ d ∈ b s then
      ppLineElim box d (Function.update b s ((b s).erase d)) true rest
    else ppLineElim box d b ch rest

/-- One `(box, d)` step of `_pointing_pairs_final` (main.py lines 146-164),
using the explicit `row_map`/`col_map` (equal to the row and column units). -/
def ppFinalStep (box : List Cell) (d : Nat) : Board × Bool → Board × Bool
  | (b, ch) =>
    let pos := box.filter (fun s => decide (d ∈ b s))
    if pos.length < 2 then (b, ch)
    else
      let rowsIn := (pos.map rowOf).dedup
      let colsIn := (pos.map colOf).dedup
      let st1 :=
        if rowsIn.length = 1 then
          ppLineElim box d b ch (allCells.filter (fun s => decide (rowOf s = rowsIn.headD 0)))
        else (b, ch)
      if colsIn.length = 1 then
        ppLineElim box d st1.1 st1.2 (allCells.filter (fun s => decide (colOf s = colsIn.headD 0)))
      else st1

/-- `SudokuSolver._pointing_pairs_final` (main.py lines 141-165). -/
def ppFinal (b : Board) (chIn : Bool) : Board × Bool :=
  ((BOX_UNITS.map (fun box => digitsList.map (fun d => (box, d)))).flatten).foldl
    (fun st p => ppFinalStep p.1 p.2 st) (b, chIn)

/-- One `(box, d)` step of `_pointing_pairs_clean` (main.py lines 119-137):
only the row-confinement branch mutates state; the column branch (lines
135-137) binds `c` and `col` and then does nothing with them. -/
def ppCleanStep (box : List Cell) (d : Nat) : Board × Bool → Board × Bool
  | (b, ch) =>
    let positions := box.filter (fun s => decide (d ∈ b s))
    if positions.length < 2 then (b, ch)
    else
      let rowsIn := (positions.map rowOf).dedup
      if rowsIn.length = 1 then
        ppLineElim box d b ch (allCells.filter (fun s => decide (rowOf s = rowsIn.headD 0)))
      else (b, ch)

/-- `SudokuSolver._pointing_pairs_clean` (main.py lines 116-139): the row
part of the reduction, then a tail call to `_pointing_pairs_final` with the
accumulated `changed` flag. -/
def ppClean (b : Board) : Board × Bool :=
  let pr := ((BOX_UNITS.map (fun box => digitsList.map (fun d => (box, d)))).flatten).foldl
    (fun st p => ppCleanStep p.1 p.2 st) (b, false)
  ppFinal pr.1 pr.2

/-- `SudokuSolver.pointing_pairs` (main.py lines 92-114).  Its first loop
builds the `rows` dict for each box and, at the first entry with 1 to 3
cells, line 112 raises `StopIteration` (see `boxTrigger`); `none` models
that uncaught exception.  Only when no box produces any such entry (no box
cell holds any digit 1-9) does the function fall through to
`self._pointing_pairs_clean()`. -/
def pointingPairs (b : Board) : Option (Board × Bool) :=
  if BOX_UNITS.any (fun box => boxTrigger b box) then none
  else some (ppClean b)

/-- Result of `propagate_all` (main.py lines 179-194): `failed`/`ok b` are
the `False`/`True` returns (`True` with the final state), `raised` an
uncaught exception from `pointing_pairs`, `out` fuel exhaustion. -/
inductive PRes where
  | out
  | raised
  | failed
  | ok (b : Board)
deriving DecidableEq

/-- `SudokuSolver.propagate_all` (main.py lines 179-194).  Each round runs
`hidden_singles`, `naked_pairs`, `pointing_pairs` in order; a Python
`False` from any of them — which is both the contradiction signal and the
made-no-change report — returns `False` for the whole pass; otherwise the
round repeats until a snapshot comparison shows no change. -/
def propagateAll : Nat → Board → PRes
  | 0, _ => .out
  | (n + 1), b =>
    match hiddenSingles (n + 1) b with
    | .out => .out
    | .fail => .failed
    | .ok b1 ch1 =>
      if ch1 = false then .failed
      else
        match nakedPairs b1 with
        | none => .failed
        | some (b2, ch2) =>
          if ch2 = false then .failed
          else
            match pointingPairs b2 with
            | none => .raised
            | some (b3, ch3) =>
              if ch3 = false then .failed
              else if b3 = b then .ok b3
              else propagateAll n b3

/-! ## Solved-state check, search and solve (main.py lines 199-254) -/

/-- Python's `len(vals) == len(set(vals))` (main.py line 205). -/
def pyAllDistinct (l : List Nat) : Bool := decide (l.dedup.length = l.length)

/-- The `vals` list of `_valid_grid.unit_ok` (main.py line 204): the values
of the solved cells of a unit. -/
def unitVals (b : Board) (u : List Cell) : List Nat :=
  (u.filter (fun s => decide ((b s).card = 1))).map (fun s => only (b s))

/-- `SudokuSolver._valid_grid` (main.py lines 202-206). -/
def validGrid (b : Board) : Bool := allUnits.all (fun u => pyAllDistinct (unitVals b u))

/-- `SudokuSolver.is_solved` (main.py lines 199-200). -/
def isSolvedB (b : Board) : Bool :=
  allCells.all (fun s => decide ((b s).card = 1)) && validGrid b

/-- Python's `min(xs, key=key)` for a nonempty list: the first element
attaining the minimum key; `none` models the `ValueError` raised on an
empty sequence. -/
def pyMinBy (key : Cell → Nat) : List Cell → Option Cell
  | [] => none
  | x :: xs => some (xs.foldl (fun acc y => if key y < key acc then y else acc) x)

/-- `unsolved = [s for s in CELLS if len(self.values[s]) > 1]` (main.py
line 215), in the row-major `CELLS` order. -/
def unsolvedList (b : Board) : List Cell :=
  allCells.filter (fun s => decide (1 < (b s).card))

/-- The MRV choice `min(unsolved, key=lambda s: len(self.values[s]))`
(main.py line 216). -/
def mrvCell (b : Board) : Option Cell := pyMinBy (fun s => (b s).card) (unsolvedList b)

/-- `lcv_score` (main.py lines 218-223): how many peers of `cell` also hold
candidate `d`. -/
def lcvScore (b : Board) (cell : Cell) (d : Nat) : Nat :=
  ((peersOf cell).filter (fun p => decide (d ∈ b p))).length

/-- `candidates = sorted(self.values[cell], key=lcv_score)` (main.py line
224): a stable sort by score over the candidate set (set iteration order
embedded as ascending). -/
def candOrder (b : Board) (cell : Cell) : List Nat :=
  (ascList (b cell)).insertionSort
    (fun d1 d2 => lcvScore b cell d1 ≤ lcvScore b cell d2)

/-- Result of `search` (main.py lines 209-232): `sol b` is a non-`None`
return of the solved state, `noSol` the `return None`, `raised` an uncaught
exception (from `pointing_pairs`, or `min` on an empty sequence), `out`
fuel exhaustion. -/
inductive SchRes where
  | out
  | raised
  | noSol
  | sol (b : Board)
deriving DecidableEq

/-- The `for d in candidates` loop of `search` (main.py lines 226-231):
each iteration restores the pre-loop snapshot, so every `assign` starts
from the same board; `sr` and `asg` are the search and assign functions for
the current recursion depth. -/
def tryCandsF (sr : Board → SchRes) (asg : Board → Cell → Nat → ERes) :
    Board → Cell → List Nat → SchRes
  | _, _, [] => .noSol
  | b, cell, d :: ds =>
    match asg b cell d with
    | .out => .out
    | .fail => tryCandsF sr asg b cell ds
    | .ok b' =>
      match sr b' with
      | .sol s => .sol s
      | .noSol => tryCandsF sr asg b cell ds
      | .raised => .raised
      | .out => .out

/-- `SudokuSolver.search` (main.py lines 209-232): propagate, check solved,
choose the MRV cell, and try its candidates in LCV order, recursing one
fuel level down. -/
def search : Nat → Board → SchRes
  | 0, _ => .out
  | (n + 1), b =>
    match propagateAll (n + 1) b with
    | .out => .out
    | .raised => .raised
    | .failed => .noSol
    | .ok b1 =>
      if isSolvedB b1 then .sol b1
      else
        match mrvCell b1 with
        | none => .raised
        | some cell => tryCandsF (search n) (assign n) b1 cell (candOrder b1 cell)

/-- Result of `solve` (main.py lines 234-237): `solved b` models the
successful return (Python returns the pretty-printed `__str__`; rendering
is presentation and out of scope, so we keep the solved board),
`noSolutionError` the `raise ValueError("No solution found ...")`,
`raised` an exception escaping `search`. -/
inductive SolveRes where
  | out
  | raised
  | noSolutionError
  | solved (b : Board)
deriving DecidableEq

/-- `SudokuSolver.solve` (main.py lines 234-237). -/
def solve (n : Nat) (b : Board) : SolveRes :=
  match search n b with
  | .sol b' => .solved b'
  | .noSol => .noSolutionError
  | .raised => .raised
  | .out => .out

/-- `true` iff `solve` returned normally (claim C1's success case). -/
def SolveRes.success : SolveRes → Bool
  | .solved _ => true
  | _ => false

/-! ## Construction from a string and `as_string` (main.py lines 24-33,
246-254) -/

/-- The digit characters, `Digits = set("123456789")` as characters. -/
def digitChars : List Char := ['1', '2', '3', '4', '5', '6', '7', '8', '9']

def digitChar (n : Nat) : Char := Char.ofNat (48 + n)

def charToDigit (ch : Char) : Nat := ch.toNat - 48

/-- The whitespace characters removed by Python's `str.strip()`. -/
def isPySpace (ch : Char) : Bool :=
  ch = ' ' || ch = '\t' || ch = '\n' || ch = '\r' || ch = '\x0b' || ch = '\x0c'

/-- `grid.strip()` (main.py line 27): remove leading and trailing
whitespace. -/
def pyStrip (s : List Char) : List Char :=
  ((s.dropWhile isPySpace).reverse.dropWhile isPySpace).reverse

/-- Result of `SudokuSolver.__init__` on a string (main.py lines 24-33):
`lenErr` is `ValueError("Grid string must be exactly 81 characters.")`,
`contraErr` is `ValueError("Invalid puzzle (contradiction on load).")`,
`ok b` a fully constructed solver with state `b`. -/
inductive InitRes where
  | lenErr
  | contraErr
  | out
  | ok (b : Board)
deriving DecidableEq

/-- `some b` iff construction succeeded with state `b`. -/
def InitRes.board? : InitRes → Option Board
  | .ok b => some b
  | _ => none

/-- The clue loop of `__init__` (main.py lines 30-33): zip the cells with
the stripped grid in row-major order and `assign` every digit character. -/
def initLoop : Nat → Board → List (Cell × Char) → InitRes
  | _, b, [] => .ok b
  | n, b, (s, ch) :: rest =>
    if ch ∈ digitChars then
      match assign n b s (charToDigit ch) with
      | .out => .out
      | .fail => .contraErr
      | .ok b' => initLoop n b' rest
    else initLoop n b rest

/-- `SudokuSolver.__init__` on an 81-character-string input (main.py lines
24-33): strip, check the length of the *stripped* string, then assign every
clue onto the fresh full board. -/
def fromString (n : Nat) (s : List Char) : InitRes :=
  let g := pyStrip s
  if g.length ≠ 81 then .lenErr
  else initLoop n blankB (allCells.zip g)

/-- `SudokuSolver.as_string` (main.py lines 246-254). -/
def asString (b : Board) : List Char :=
  allCells.map (fun s => if (b s).card = 1 then digitChar (only (b s)) else '.')

/-! ## Basic facts about the embedding -/

lemma ascListGo_mem : ∀ n (s : Finset Nat), s.card ≤ n →
    ∀ e, e ∈ ascListGo n s ↔ e ∈ s := by
  intro n
  induction n with
  | zero =>
    intro s hs e
    have h0 : s = ∅ := Finset.card_eq_zero.mp (Nat.le_zero.mp hs)
    subst h0
    simp [ascListGo]
  | succ n ih =>
    intro s hs e
    rw [ascListGo]
    rcases hm : s.min with _ | m
    · have h0 : s = ∅ := Finset.min_eq_top.mp (by rw [hm]; exact WithTop.none_eq_top)
      subst h0
      simp
    · have hms : m ∈ s := Finset.mem_of_min hm
      have hcard : (s.erase m).card ≤ n := by
        rw [Finset.card_erase_of_mem hms]
        omega
      simp only [List.mem_cons, ih (s.erase m) hcard e, Finset.mem_erase]
      constructor
      · rintro (rfl | ⟨_, he⟩)
        · exact hms
        · exact he
      · intro he
        by_cases hem : e = m
        · exact Or.inl hem
        · exact Or.inr ⟨hem, he⟩

lemma ascList_mem (s : Finset Nat) (e : Nat) : e ∈ ascList s ↔ e ∈ s :=
  ascListGo_mem s.card s (Nat.le_refl _) e

lemma ascList_singleton (a : Nat) : ascList {a} = [a] := by
  rw [ascList, Finset.card_singleton, ascListGo, Finset.min_singleton]
  simp [ascListGo]

lemma only_singleton (a : Nat) : only {a} = a := by
  rw [only, ascList_singleton]
  rfl

lemma eq_singleton_only {s : Finset Nat} (h : s.card = 1) : s = {only s} := by
  obtain ⟨a, rfl⟩ := Finset.card_eq_one.mp h
  rw [only_singleton]

/-! ## Invariants of a successful `eliminate`/`assign` call

A successful call only shrinks candidate sets, never leaves a nonempty
cell empty (the emptiness check of main.py line 54 fires before any
successful return), and whenever it shrinks a cell to a singleton the peer
cascade of main.py lines 57-61 has removed that value from all the cell's
peers. -/

/-- Candidate sets only shrink (spec's monotonicity). -/
def Shrink (b b' : Board) : Prop := ∀ x, b' x ⊆ b x

/-- Cells that were nonempty stay nonempty. -/
def KeepsNonempty (b b' : Board) : Prop := ∀ x, b x ≠ ∅ → b' x ≠ ∅

/-- Any cell that became a singleton during the call has had its value
eliminated from all its peers. -/
def NewSingleClears (b b' : Board) : Prop :=
  ∀ x e, b' x = {e} → b x ≠ {e} → ∀ p ∈ peersOf x, e ∉ b' p

/-- The conjunction of the three success invariants. -/
structure Good (b b' : Board) : Prop where
  shrink : Shrink b b'
  keeps : KeepsNonempty b b'
  clears : NewSingleClears b b'

lemma Good.rfl (b : Board) : Good b b :=
  ⟨fun _ => Finset.Subset.refl _, fun _ h => h, fun x e h1 h2 => absurd h1 h2⟩

lemma Good.trans {b1 b2 b3 : Board} (g1 : Good b1 b2) (g2 : Good b2 b3) : Good b1 b3 := by
  refine ⟨fun x => (g2.shrink x).trans (g1.shrink x),
    fun x h => g2.keeps x (g1.keeps x h), fun x e h3 h1 p hp => ?_⟩
  by_cases h2 : b2 x = {e}
  · exact fun hmem => g1.clears x e h2 h1 p hp (g2.shrink p hmem)
  · exact g2.clears x e h3 h2 p hp

/-- What a successful `eliminate n b c d = ok b'` guarantees. -/
def ElimOK (n : Nat) : Prop :=
  ∀ b c d b', eliminate n b c d = .ok b' → Good b b' ∧ d ∉ b' c

/-- What a successful `assign n b c d = ok b'` guarantees: all candidates
other than `d` have been removed from `c`. -/
def AssignOK (n : Nat) : Prop :=
  ∀ b c d b', assign n b c d = .ok b' → Good b b' ∧ ∀ e ∈ b c, e ≠ d → e ∉ b' c


lemma elimSeqF_ok {el : Board → Cell → Nat → ERes}
    (he : ∀ b c d b', el b c d = .ok b' → Good b b' ∧ d ∉ b' c) :
    ∀ l b b', elimSeqF el b l = .ok b' →
      Good b b' ∧ ∀ p ∈ l, p.2 ∉ b' p.1 := by
  intro l
  induction l with
  | nil =>
    intro b b' h
    rw [elimSeqF] at h
    cases h
    exact ⟨Good.rfl b, by simp⟩
  | cons hd tl ih =>
    intro b b' h
    obtain ⟨c, d⟩ := hd
    rw [elimSeqF] at h
    split at h
    · exact absurd h (by simp)
    · exact absurd h (by simp)
    · rename_i b1 h1
      obtain ⟨g1, hd1⟩ := he b c d b1 h1
      obtain ⟨g2, hrest⟩ := ih b1 b' h
      refine ⟨g1.trans g2, ?_⟩
      intro p hp
      rcases List.mem_cons.mp hp with hp | hp
      · subst hp; exact fun hmem => hd1 (g2.shrink c hmem)
      · exact hrest p hp

lemma assignF_ok {el : Board → Cell → Nat → ERes}
    (he : ∀ b c d b', el b c d = .ok b' → Good b b' ∧ d ∉ b' c) :
    ∀ b c d b', assignF el b c d = .ok b' →
      Good b b' ∧ ∀ e ∈ b c, e ≠ d → e ∉ b' c := by
  intro b c d b' h
  rw [assignF] at h
  obtain ⟨g, hpairs⟩ := elimSeqF_ok he _ b b' h
  refine ⟨g, fun e he' hed => ?_⟩
  apply hpairs (c, e)
  apply List.mem_map.mpr
  refine ⟨e, ?_, rfl⟩
  rw [ascList_mem]
  exact Finset.mem_erase.mpr ⟨hed, he'⟩

lemma unitLoopF_ok {asg : Board → Cell → Nat → ERes}
    (ha : ∀ b c d b', asg b c d = .ok b' → Good b b') :
    ∀ us b d b', unitLoopF asg b us d = .ok b' → Good b b' := by
  intro us
  induction us with
  | nil =>
    intro b d b' h
    rw [unitLoopF] at h
    cases h
    exact Good.rfl b
  | cons u tl ih =>
    intro b d b' h
    rw [unitLoopF] at h
    split at h
    · exact absurd h (by simp)
    · rename_i s0 hfil
      split at h
      · exact absurd h (by simp)
      · exact absurd h (by simp)
      · rename_i b1 h1
        exact (ha b s0 d b1 h1).trans (ih b1 d b' h)
    · exact ih b d b' h

lemma elim_ok : ∀ n, ElimOK n := by
  intro n
  induction n with
  | zero =>
    intro b c d b' h; rw [eliminate] at h; exact absurd h (by simp)
  | succ n ih =>
    intro b c d b' h
    rw [eliminate] at h
    by_cases hd : d ∈ b c
    · rw [if_pos hd] at h
      set b1 : Board := Function.update b c ((b c).erase d) with hb1
      have hb1c : b1 c = (b c).erase d := by
        rw [hb1]; exact Function.update_same c _ b
      by_cases h0 : (b1 c).card = 0
      · rw [if_pos h0] at h; exact absurd h (by simp)
      · rw [if_neg h0] at h
        have hd1 : d ∉ b1 c := by rw [hb1c]; exact Finset.not_mem_erase d (b c)
        have hshr1 : Shrink b b1 := by
          intro x
          by_cases hx : x = c
          · rw [hx, hb1c]; exact Finset.erase_subset d (b c)
          · rw [hb1, Function.update_noteq hx]
        have hkeep1 : KeepsNonempty b b1 := by
          intro x hx hemp
          by_cases hxc : x = c
          · rw [hxc] at hemp
            exact h0 (by rw [hemp]; rfl)
          · rw [hb1, Function.update_noteq hxc] at hemp
            exact hx hemp
        have hasg : ∀ b c d b', assignF (eliminate n) b c d = .ok b' → Good b b' :=
          fun b c d b' hh => (assignF_ok ih b c d b' hh).1
        by_cases h1 : (b1 c).card = 1
        · -- the removal made c a singleton: the peer cascade runs
          rw [if_pos h1] at h
          rcases h2 : elimSeqF (eliminate n) b1
              ((peersOf c).map (fun p => (p, only (b1 c)))) with _ | _ | b2
          · rw [h2] at h; exact absurd h (by simp)
          · rw [h2] at h; exact absurd h (by simp)
          · rw [h2] at h
            have h3 : unitLoopF (assignF (eliminate n)) b2 (unitsOf c) d = ERes.ok b' := h
            obtain ⟨g2, hpairs⟩ := elimSeqF_ok ih _ b1 b2 h2
            have g3 : Good b2 b' := unitLoopF_ok hasg _ b2 d b' h3
            have he0 : b1 c = {only (b1 c)} := eq_singleton_only h1
            have hpeers2 : ∀ p ∈ peersOf c, only (b1 c) ∉ b2 p := by
              intro p hp
              exact hpairs (p, only (b1 c)) (List.mem_map.mpr ⟨p, hp, rfl⟩)
            refine ⟨⟨fun x => ((g3.shrink x).trans (g2.shrink x)).trans (hshr1 x),
              fun x hx => g3.keeps x (g2.keeps x (hkeep1 x hx)), ?_⟩,
              fun hmem => hd1 (g2.shrink c (g3.shrink c hmem))⟩
            intro x e hx' hx p hp
            by_cases hxc : x = c
            · subst hxc
              have hsub : b' x ⊆ b1 x := (g3.shrink x).trans (g2.shrink x)
              have he : e = only (b1 x) := by
                have hm : e ∈ b1 x := hsub (by rw [hx']; exact Finset.mem_singleton_self e)
                rw [he0, Finset.mem_singleton] at hm
                exact hm
              subst he
              exact fun hmem => hpeers2 p hp (g3.shrink p hmem)
            · have hne : b1 x ≠ {e} := by
                rw [hb1, Function.update_noteq hxc]; exact hx
              by_cases h2x : b2 x = {e}
              · exact fun hmem => g2.clears x e h2x hne p hp (g3.shrink p hmem)
              · exact g3.clears x e hx' h2x p hp
        · -- no singleton created here: the peer loop is skipped
          rw [if_neg h1] at h
          have h3 : unitLoopF (assignF (eliminate n)) b1 (unitsOf c) d = ERes.ok b' := h
          have g3 : Good b1 b' := unitLoopF_ok hasg _ b1 d b' h3
          refine ⟨⟨fun x => (g3.shrink x).trans (hshr1 x),
            fun x hx => g3.keeps x (hkeep1 x hx), ?_⟩,
            fun hmem => hd1 (g3.shrink c hmem)⟩
          intro x e hx' hx p hp
          have hne : b1 x ≠ {e} := by
            by_cases hxc : x = c
            · subst hxc
              intro hsing
              exact h1 (by rw [hsing]; exact Finset.card_singleton e)
            · rw [hb1, Function.update_noteq hxc]; exact hx
          exact g3.clears x e hx' hne p hp
    · rw [if_neg hd] at h
      cases h
      exact ⟨Good.rfl b, hd⟩

lemma assign_ok : ∀ n, AssignOK n := by
  intro n
  rcases n with _ | n
  · intro b c d b' h; rw [assign] at h; exact absurd h (by simp)
  · intro b c d b' h
    rw [assign] at h
    exact assignF_ok (elim_ok n) b c d b' h

/-! ## Enough fuel

With fuel at least `totalCands b + 2` the embedded `eliminate` never
reports `out`: every recursion level of the Python original starts by
removing a candidate from the global pool, which bounds its call depth. -/

/-- The total number of candidates on the board, the termination measure of
the Python recursion ("it must terminate because candidate sets only
shrink", spec section 4.2). -/
def totalCands (b : Board) : Nat := Finset.univ.sum (fun c : Cell => (b c).card)

lemma totalCands_mono {b b' : Board} (h : Shrink b b') : totalCands b' ≤ totalCands b :=
  Finset.sum_le_sum (fun c _ => Finset.card_le_card (h c))

lemma totalCands_update_erase {b : Board} {c : Cell} {d : Nat} (hd : d ∈ b c) :
    totalCands (Function.update b c ((b c).erase d)) + 1 = totalCands b := by
  have hfun : (fun x : Cell => ((Function.update b c ((b c).erase d)) x).card)
      = Function.update (fun x : Cell => (b x).card) c ((b c).erase d).card := by
    funext x
    exact Function.apply_update (fun _ s => s.card) b c ((b c).erase d) x
  unfold totalCands
  rw [hfun, Finset.sum_update_of_mem (Finset.mem_univ c), Finset.card_erase_of_mem hd]
  have hc : 1 ≤ (b c).card := Finset.card_pos.mpr ⟨d, hd⟩
  have hsplit : (b c).card + (Finset.univ.erase c).sum (fun x : Cell => (b x).card)
      = Finset.univ.sum (fun x : Cell => (b x).card) :=
    Finset.add_sum_erase Finset.univ (fun x : Cell => (b x).card) (Finset.mem_univ c)
  rw [← Finset.erase_eq]
  omega

lemma elimSeqF_noOut {el : Board → Cell → Nat → ERes} {N : Nat}
    (hok : ∀ b c d b', el b c d = .ok b' → Good b b' ∧ d ∉ b' c)
    (hno : ∀ b c d, totalCands b ≤ N → el b c d ≠ .out) :
    ∀ l b, totalCands b ≤ N → elimSeqF el b l ≠ .out := by
  intro l
  induction l with
  | nil => intro b hn h; rw [elimSeqF] at h; exact absurd h (by simp)
  | cons hd tl ih =>
    intro b hn h
    obtain ⟨c, d⟩ := hd
    rw [elimSeqF] at h
    rcases h1 : el b c d with _ | _ | b1 <;> rw [h1] at h
    · exact hno b c d hn h1
    · exact absurd h (by simp)
    · have hm : totalCands b1 ≤ totalCands b := totalCands_mono (hok b c d b1 h1).1.shrink
      exact ih b1 (by omega) h

lemma assignF_noOut {el : Board → Cell → Nat → ERes} {N : Nat}
    (hok : ∀ b c d b', el b c d = .ok b' → Good b b' ∧ d ∉ b' c)
    (hno : ∀ b c d, totalCands b ≤ N → el b c d ≠ .out) :
    ∀ b c d, totalCands b ≤ N → assignF el b c d ≠ .out := by
  intro b c d hn h
  rw [assignF] at h
  exact elimSeqF_noOut hok hno _ b hn h

lemma unitLoopF_noOut {asg : Board → Cell → Nat → ERes} {N : Nat}
    (hok : ∀ b c d b', asg b c d = .ok b' → Good b b')
    (hno : ∀ b c d, totalCands b ≤ N → asg b c d ≠ .out) :
    ∀ us b d, totalCands b ≤ N → unitLoopF asg b us d ≠ .out := by
  intro us
  induction us with
  | nil => intro b d hn h; rw [unitLoopF] at h; exact absurd h (by simp)
  | cons u tl ih =>
    intro b d hn h
    rw [unitLoopF] at h
    split at h
    · exact absurd h (by simp)
    · rename_i s0 hfil
      split at h
      · rename_i h1; exact hno b s0 d hn h1
      · exact absurd h (by simp)
      · rename_i b1 h1
        have hm : totalCands b1 ≤ totalCands b := totalCands_mono (hok b s0 d b1 h1).shrink
        exact ih b1 d (by omega) h
    · exact ih b d hn h

lemma elim_noOut : ∀ n b c d, totalCands b + 2 ≤ n → eliminate n b c d ≠ .out := by
  intro n
  induction n with
  | zero => intro b c d hn; omega
  | succ n ih =>
    intro b c d hn h
    rw [eliminate] at h
    by_cases hd : d ∈ b c
    · rw [if_pos hd] at h
      set b1 : Board := Function.update b c ((b c).erase d) with hb1
      have htc : totalCands b1 + 1 = totalCands b := totalCands_update_erase hd
      have hno1 : ∀ b' c' d', totalCands b' ≤ totalCands b1 → eliminate n b' c' d' ≠ .out :=
        fun b' c' d' hb' => ih b' c' d' (by omega)
      have hnoA : ∀ b' c' d', totalCands b' ≤ totalCands b1 →
          assignF (eliminate n) b' c' d' ≠ .out :=
        assignF_noOut (elim_ok n) hno1
      have hokA : ∀ b' c' d' b'', assignF (eliminate n) b' c' d' = .ok b'' → Good b' b'' :=
        fun b' c' d' b'' hh => (assignF_ok (elim_ok n) b' c' d' b'' hh).1
      by_cases h0 : (b1 c).card = 0
      · rw [if_pos h0] at h; exact absurd h (by simp)
      · rw [if_neg h0] at h
        by_cases h1 : (b1 c).card = 1
        · rw [if_pos h1] at h
          rcases h2 : elimSeqF (eliminate n) b1
              ((peersOf c).map (fun p => (p, only (b1 c)))) with _ | _ | b2
          · exact elimSeqF_noOut (elim_ok n) hno1 _ b1 (Nat.le_refl _) h2
          · rw [h2] at h; exact absurd h (by simp)
          · rw [h2] at h
            have h3 : unitLoopF (assignF (eliminate n)) b2 (unitsOf c) d = ERes.out := h
            have hm : totalCands b2 ≤ totalCands b1 :=
              totalCands_mono (elimSeqF_ok (elim_ok n) _ b1 b2 h2).1.shrink
            exact unitLoopF_noOut hokA hnoA _ b2 d hm h3
        · rw [if_neg h1] at h
          have h3 : unitLoopF (assignF (eliminate n)) b1 (unitsOf c) d = ERes.out := h
          exact unitLoopF_noOut hokA hnoA _ b1 d (Nat.le_refl _) h3
    · rw [if_neg hd] at h
      exact absurd h (by simp)

lemma assign_noOut : ∀ n b c d, totalCands b + 3 ≤ n → assign n b c d ≠ .out := by
  intro n
  rcases n with _ | n
  · intro b c d hn; omega
  · intro b c d hn h
    rw [assign] at h
    have hno1 : ∀ b' c' d', totalCands b' ≤ totalCands b → eliminate n b' c' d' ≠ .out :=
      fun b' c' d' hb' => elim_noOut n b' c' d' (by omega)
    exact assignF_noOut (elim_ok n) hno1 b c d (Nat.le_refl _) h


/-! ## Derived facts about `assign` -/

/-- A successful real assignment pins the cell to `{d}`: all other digits
were eliminated, the set only shrank, and success kept it nonempty. -/
lemma assign_ok_singleton {n : Nat} {b : Board} {c : Cell} {d : Nat} {b' : Board}
    (hne : b c ≠ ∅) (h : assign n b c d = .ok b') : b' c = {d} := by
  obtain ⟨g, hrm⟩ := assign_ok n b c d b' h
  have hsub : b' c ⊆ {d} := by
    intro e he'
    rcases eq_or_ne e d with rfl | hed
    · exact Finset.mem_singleton_self e
    · exact absurd he' (hrm e (g.shrink c he') hed)
  have hnee : b' c ≠ ∅ := g.keeps c hne
  obtain ⟨f, hf⟩ := Finset.nonempty_iff_ne_empty.mpr hnee
  have hfd : f = d := Finset.mem_singleton.mp (hsub hf)
  subst hfd
  apply Finset.Subset.antisymm hsub
  intro e he'
  rw [Finset.mem_singleton] at he'
  subst he'
  exact hf

/-! ## Claim C7 -/

/-- C7: eliminating a digit that is absent from the cell's candidate set is
a no-op: `eliminate` returns success and the whole board state is the very
board it was given (main.py lines 50-51). -/
theorem eliminate_absent_noop (n : Nat) (b : Board) (c : Cell) (d : Nat)
    (hd : d ∉ b c) : eliminate (n + 1) b c d = .ok b := by
  rw [eliminate, if_neg hd]

/-- A board with cell "A1" restricted to `{1, 2}`, used as a concrete
input by several witnesses. -/
def oneCellB : Board := Function.update blankB 0 ({1, 2} : Finset Nat)

/-- Witness for C7 at a concrete input. -/
theorem eliminate_absent_noop_witness : eliminate 1 oneCellB 0 5 = ERes.ok oneCellB :=
  eliminate_absent_noop 0 oneCellB 0 5 (by decide)

/-! ## Claim C10 -/

/-- C10: committing a digit that is no longer among a (nonempty) cell's
candidates is reported as a contradiction: `assign` returns failure, because
eliminating all the other candidates drives the cell empty (main.py lines
43-55).  The fuel hypothesis only rules out the embedding's artificial
fuel-exhaustion outcome. -/
theorem assign_absent_digit_fails (n : Nat) (b : Board) (c : Cell) (d : Nat)
    (hd : d ∉ b c) (hne : b c ≠ ∅) (hn : totalCands b + 3 ≤ n) :
    assign n b c d = .fail := by
  rcases hres : assign n b c d with _ | _ | b'
  · exact absurd hres (assign_noOut n b c d hn)
  · rfl
  · exfalso
    have hsing := assign_ok_singleton hne hres
    have hdin : d ∈ b c := (assign_ok n b c d b' hres).1.shrink c
      (by rw [hsing]; exact Finset.mem_singleton_self d)
    exact hd hdin

/-- Witness for C10 at a concrete input: cell "A1" holds `{1, 2}` and is
assigned the eliminated digit 5. -/
theorem assign_absent_digit_fails_witness : assign 1447 oneCellB 0 5 = ERes.fail :=
  assign_absent_digit_fails 1447 oneCellB 0 5 (by decide) (by decide) (by decide)

/-! ## Claim C5 -/

/-- Pointwise board comparison as a boolean.  (The `DecidableEq` instance
for functions out of `Fin 81` does not reduce inside the kernel, so
concrete board equalities are checked cell by cell through this function.) -/
def boardEqB (b1 b2 : Board) : Bool := allCells.all (fun c => decide (b1 c = b2 c))

lemma boardEqB_iff {b1 b2 : Board} : boardEqB b1 b2 = true ↔ b1 = b2 := by
  rw [boardEqB, List.all_eq_true]
  constructor
  · intro h
    funext c
    exact of_decide_eq_true (h c (List.mem_finRange c))
  · rintro rfl c _
    exact decide_eq_true rfl

/-- `true` iff `r` is `ok` with exactly the board `b`. -/
def eresOkAt (r : ERes) (b : Board) : Bool :=
  match r with
  | .ok b' => boardEqB b' b
  | _ => false

lemma eres_eq_ok {r : ERes} {b : Board} (h : eresOkAt r b = true) : r = .ok b := by
  cases r with
  | out => exact absurd h (by simp [eresOkAt])
  | fail => exact absurd h (by simp [eresOkAt])
  | ok b' =>
    rw [eresOkAt] at h
    rw [boardEqB_iff.mp h]


/-- `true` iff no peer of `c` holds `d` as a candidate. -/
def noPeerHas (b : Board) (c : Cell) (d : Nat) : Bool :=
  (peersOf c).all (fun p => decide (d ∉ b p))

/-- A board in which "A1" and its peer "A2" are both already pinned to 5:
`assign("A1", 5)` then succeeds as a pure no-op without touching "A2". -/
def twoFivesB : Board := fun x => if x = 0 then {5} else if x = 1 then {5} else Digits

/-- C5 counterexample: an `assign(cell, d)` call that returns success after
which a peer of `cell` still lists `d`.  When the cell is already pinned to
`d`, `other` (main.py line 45) is empty, the `all(...)` loop runs no
eliminations, and the peer cascade never fires. -/
theorem assign_success_peer_keeps_digit :
    assign 3 twoFivesB 0 5 = ERes.ok twoFivesB
    ∧ (1 : Cell) ∈ peersOf 0 ∧ 5 ∈ twoFivesB 1 :=
  ⟨eres_eq_ok (by decide), by decide, by decide⟩

/-- C5 as amended: if the cell has some candidate other than `d` (so the
call performs at least one elimination), then after a successful
`assign(cell, d)` no peer of `cell` lists `d` as a candidate. -/
theorem assign_success_clears_peers (n : Nat) (b : Board) (c : Cell) (d : Nat)
    (b' : Board) (hother : ∃ e ∈ b c, e ≠ d) (h : assign n b c d = .ok b') :
    noPeerHas b' c d = true := by
  obtain ⟨g, _⟩ := assign_ok n b c d b' h
  have hne : b c ≠ ∅ := by
    obtain ⟨e, he, _⟩ := hother
    intro hh
    rw [hh] at he
    exact absurd he (Finset.not_mem_empty e)
  have hsing : b' c = {d} := assign_ok_singleton hne h
  have hbceq : b c ≠ {d} := by
    obtain ⟨e, he, hed⟩ := hother
    intro hh
    rw [hh, Finset.mem_singleton] at he
    exact hed he
  rw [noPeerHas, List.all_eq_true]
  intro p hp
  rw [decide_eq_true_iff]
  exact g.clears c d hsing hbceq p hp

/-- The board produced by assigning 5 to "A1" on a fresh board: "A1" is
pinned and 5 is gone from all 20 peers. -/
def fiveAssignedB : Board := fun x =>
  if x = 0 then {5} else if decide (x ∈ peersOf 0) then Digits.erase 5 else Digits

/-- Witness for the amended C5 at a concrete input. -/
theorem assign_success_clears_peers_witness : noPeerHas fiveAssignedB 0 5 = true :=
  assign_success_clears_peers 20 blankB 0 5 fiveAssignedB (by decide)
    (eres_eq_ok (by decide))

/-! ## Claim C4 -/

/-- If the unit loop of `eliminate` returns success, then every unit it
scanned still had, when it was scanned, a cell holding `d` — and since
candidate sets only shrink, already had one in the board the loop started
from. -/
lemma unitLoopF_ok_places {asg : Board → Cell → Nat → ERes}
    (hok : ∀ b c d b', asg b c d = .ok b' → Good b b') :
    ∀ us b d b', unitLoopF asg b us d = .ok b' → ∀ u ∈ us, ∃ s ∈ u, d ∈ b s := by
  intro us
  induction us with
  | nil => intro b d b' _ u hu; exact absurd hu (List.not_mem_nil u)
  | cons u0 tl ih =>
    intro b d b' h u hu
    rw [unitLoopF] at h
    split at h
    · exact absurd h (by simp)
    · rename_i s0 hfil
      have hs0 : s0 ∈ u0.filter (fun s => decide (d ∈ b s)) := by
        rw [hfil]; exact List.mem_singleton.mpr rfl
      rw [List.mem_filter, decide_eq_true_iff] at hs0
      split at h
      · exact absurd h (by simp)
      · exact absurd h (by simp)
      · rename_i b1 h1
        rcases List.mem_cons.mp hu with rfl | hu
        · exact ⟨s0, hs0.1, hs0.2⟩
        · obtain ⟨s, hs, hsd⟩ := ih b1 d b' h u hu
          exact ⟨s, hs, (hok b s0 d b1 h1).shrink s hsd⟩
    · rename_i s1 s2 tail hfil
      rcases List.mem_cons.mp hu with rfl | hu
      · have hs : s1 ∈ u.filter (fun s => decide (d ∈ b s)) := by
          rw [hfil]; exact List.mem_cons_self s1 (s2 :: tail)
        rw [List.mem_filter, decide_eq_true_iff] at hs
        exact ⟨s1, hs.1, hs.2⟩
      · exact ih b d b' h u hu

/-- C4: how `eliminate` detects contradictions after removing `d` from
`cell` (main.py lines 52-69), given `d` was present.  (1) If the removal
empties the cell, it returns failure at once.  (2) If some unit of the cell
has no cell at all holding `d` after the removal, it returns failure.
(3) If the first unit has exactly one place left for `d` (and the removal
left at least two candidates, so the peer cascade is skipped), that place
is recursively assigned `d`, and a failing assignment makes the whole
`eliminate` fail. -/
theorem eliminate_detects_contradictions (n : Nat) (b : Board) (c : Cell) (d : Nat)
    (hd : d ∈ b c) :
    ((b c).erase d = ∅ → eliminate (n + 1) b c d = .fail)
    ∧ (∀ u ∈ unitsOf c,
        (∀ s ∈ u, d ∉ Function.update b c ((b c).erase d) s) →
        totalCands b + 2 ≤ n + 1 → eliminate (n + 1) b c d = .fail)
    ∧ (∀ u1 rest s0, unitsOf c = u1 :: rest →
        (Function.update b c ((b c).erase d) c).card ≠ 0 →
        (Function.update b c ((b c).erase d) c).card ≠ 1 →
        u1.filter (fun s => decide (d ∈ Function.update b c ((b c).erase d) s)) = [s0] →
        assign (n + 1) (Function.update b c ((b c).erase d)) s0 d = .fail →
        eliminate (n + 1) b c d = .fail) := by
  refine ⟨?_, ?_, ?_⟩
  · -- (1) cell driven empty
    intro hempty
    rw [eliminate, if_pos hd]
    set b1 : Board := Function.update b c ((b c).erase d) with hb1
    have hb1c : b1 c = (b c).erase d := by rw [hb1]; exact Function.update_same c _ b
    rw [if_pos (by rw [hb1c, hempty]; rfl)]
  · -- (2) a unit with no remaining place for d
    intro u hu hzero hn
    rcases hres : eliminate (n + 1) b c d with _ | _ | b'
    · exact absurd hres (elim_noOut (n + 1) b c d hn)
    · rfl
    · exfalso
      rw [eliminate, if_pos hd] at hres
      set b1 : Board := Function.update b c ((b c).erase d) with hb1
      by_cases h0 : (b1 c).card = 0
      · rw [if_pos h0] at hres; exact absurd hres (by simp)
      · rw [if_neg h0] at hres
        have hasg : ∀ b c d b', assignF (eliminate n) b c d = .ok b' → Good b b' :=
          fun b c d b' hh => (assignF_ok (elim_ok n) b c d b' hh).1
        by_cases h1 : (b1 c).card = 1
        · rw [if_pos h1] at hres
          rcases h2 : elimSeqF (eliminate n) b1
              ((peersOf c).map (fun p => (p, only (b1 c)))) with _ | _ | b2
          · rw [h2] at hres; exact absurd hres (by simp)
          · rw [h2] at hres; exact absurd hres (by simp)
          · rw [h2] at hres
            have h3 : unitLoopF (assignF (eliminate n)) b2 (unitsOf c) d = ERes.ok b' := hres
            obtain ⟨s, hs, hsd⟩ := unitLoopF_ok_places hasg _ b2 d b' h3 u hu
            have hsub : b2 s ⊆ b1 s := (elimSeqF_ok (elim_ok n) _ b1 b2 h2).1.shrink s
            exact hzero s hs (hsub hsd)
        · rw [if_neg h1] at hres
          have h3 : unitLoopF (assignF (eliminate n)) b1 (unitsOf c) d = ERes.ok b' := hres
          obtain ⟨s, hs, hsd⟩ := unitLoopF_ok_places hasg _ b1 d b' h3 u hu
          exact hzero s hs hsd
  · -- (3) a hidden single in the first unit, whose assignment fails
    intro u1 rest s0 hunits hc0 hc1 hfil hasgfail
    rw [eliminate, if_pos hd]
    set b1 : Board := Function.update b c ((b c).erase d) with hb1
    rw [if_neg hc0, if_neg hc1, hunits]
    have hasgfail1 : assignF (eliminate n) b1 s0 d = .fail := by
      rw [assign] at hasgfail
      exact hasgfail
    show unitLoopF (assignF (eliminate n)) b1 (u1 :: rest) d = ERes.fail
    rw [unitLoopF, hfil]
    show (match assignF (eliminate n) b1 s0 d with
      | ERes.out => ERes.out
      | ERes.fail => ERes.fail
      | ERes.ok b' => unitLoopF (assignF (eliminate n)) b' rest d) = ERes.fail
    rw [hasgfail1]

/-- A board exercising part (1) of C4: "A1" holds only 5. -/
def onlyFiveB : Board := Function.update blankB 0 ({5} : Finset Nat)

/-- A board exercising part (2) of C4: "A1" holds `{1, 5}` while no other
cell of row A holds 5, so removing 5 from "A1" leaves row A with no place
for 5. -/
def rowNoFiveB : Board := fun x =>
  if x = 0 then {1, 5} else if decide (x.val < 9) then {2, 3} else Digits

/-- A board exercising part (3) of C4: "A1" holds `{3, 5, 7}`; after
removing 5 the only place for 5 in row A is "A5" = `{5, 9}`, and assigning
5 there fails because its column peer "B5" holds only 5 — wait, it holds
`{5}`, and the cascade eliminates 5 from it, driving it empty. -/
def hiddenFailB : Board := fun x =>
  if x = 0 then {3, 5, 7} else if x = 4 then {5, 9} else if x = 13 then {5}
  else if decide (x.val < 9) then {1, 2}
  else if x = 12 then {1, 2} else if x = 14 then {1, 2} else Digits

/-- Witness for C4, applying the theorem at a concrete input for each of
its three parts. -/
theorem eliminate_detects_contradictions_witness :
    eliminate 1 onlyFiveB 0 5 = ERes.fail
    ∧ eliminate 700 rowNoFiveB 0 5 = ERes.fail
    ∧ eliminate 11 hiddenFailB 0 5 = ERes.fail :=
  ⟨(eliminate_detects_contradictions 0 onlyFiveB 0 5 (by decide)).1 (by decide),
   (eliminate_detects_contradictions 699 rowNoFiveB 0 5 (by decide)).2.1
     ((unitsOf 0).headD []) (by decide) (by decide) (by decide),
   (eliminate_detects_contradictions 10 hiddenFailB 0 5 (by decide)).2.2
     ((unitsOf 0).headD []) ((unitsOf 0).tail) 4 (by decide) (by decide) (by decide)
     (by decide) (by decide)⟩


/-! ## Claim C8 -/

/-- The property the spec claims of the MRV choice, written from the spec's
words for comparison with the code's `min(unsolved, key=...)` (main.py
lines 215-216): the chosen cell has more than one candidate, its candidate
count is minimal among such cells, and every such cell strictly earlier in
the row-major order has strictly more candidates (first-minimum
tie-breaking). -/
def mrvSpec (b : Board) (c : Cell) : Bool :=
  decide (c ∈ unsolvedList b)
  && (unsolvedList b).all (fun x => decide ((b c).card ≤ (b x).card))
  && (unsolvedList b).all (fun x => decide (x.val < c.val → (b c).card < (b x).card))

/-- What the fold inside `pyMinBy` computes, over a list that is strictly
ascending in cell index: an element with minimal key, and the earliest
such element. -/
lemma pyMinFold (key : Cell → Nat) :
    ∀ (xs : List Cell) (a : Cell),
      (a :: xs).Pairwise (fun p q : Cell => p.val < q.val) →
      ∀ m, xs.foldl (fun acc y => if key y < key acc then y else acc) a = m →
        (m = a ∨ m ∈ xs)
        ∧ (key m ≤ key a ∧ ∀ y ∈ xs, key m ≤ key y)
        ∧ (m ≠ a → key m < key a)
        ∧ (∀ y ∈ xs, y.val < m.val → key m < key y) := by
  intro xs
  induction xs with
  | nil =>
    intro a hp m hm
    rw [List.foldl_nil] at hm
    subst hm
    exact ⟨Or.inl rfl, ⟨Nat.le_refl _, by simp⟩, fun hne => absurd rfl hne, by simp⟩
  | cons y0 ys ih =>
    intro a hp m hm
    rw [List.foldl_cons] at hm
    obtain ⟨hhead, htail⟩ := List.pairwise_cons.mp hp
    by_cases hlt : key y0 < key a
    · rw [if_pos hlt] at hm
      obtain ⟨h1, h2, h3, h4⟩ := ih y0 htail m hm
      refine ⟨?_, ⟨?_, ?_⟩, ?_, ?_⟩
      · rcases h1 with rfl | h1
        · exact Or.inr (List.mem_cons_self m ys)
        · exact Or.inr (List.mem_cons_of_mem y0 h1)
      · exact Nat.le_trans h2.1 (Nat.le_of_lt hlt)
      · intro y hy
        rcases List.mem_cons.mp hy with rfl | hy
        · exact h2.1
        · exact h2.2 y hy
      · intro _
        exact Nat.lt_of_le_of_lt h2.1 hlt
      · intro y hy hval
        rcases List.mem_cons.mp hy with rfl | hy
        · have hne : m ≠ y := fun hh => by rw [hh] at hval; omega
          exact h3 hne
        · exact h4 y hy hval
    · rw [if_neg hlt] at hm
      have hge : key a ≤ key y0 := Nat.le_of_not_lt hlt
      have hp' : (a :: ys).Pairwise (fun p q : Cell => p.val < q.val) := by
        rw [List.pairwise_cons]
        exact ⟨fun y hy => hhead y (List.mem_cons_of_mem y0 hy),
          (List.pairwise_cons.mp htail).2⟩
      obtain ⟨h1, h2, h3, h4⟩ := ih a hp' m hm
      refine ⟨?_, ⟨h2.1, ?_⟩, h3, ?_⟩
      · rcases h1 with rfl | h1
        · exact Or.inl rfl
        · exact Or.inr (List.mem_cons_of_mem y0 h1)
      · intro y hy
        rcases List.mem_cons.mp hy with rfl | hy
        · exact Nat.le_trans h2.1 hge
        · exact h2.2 y hy
      · intro y hy hval
        rcases List.mem_cons.mp hy with rfl | hy
        · -- y is y0; m is a or lies in ys, in both cases m ≠ a is settled
          rcases h1 with rfl | h1
          · exact absurd hval (by have := hhead y (List.mem_cons_self y ys); omega)
          · have hma : m ≠ a := by
              intro hh
              have := hhead m (List.mem_cons_of_mem y h1)
              rw [hh] at this
              omega
            exact Nat.lt_of_lt_of_le (h3 hma) hge
        · exact h4 y hy hval

lemma unsolvedList_pairwise (b : Board) :
    (unsolvedList b).Pairwise (fun p q : Cell => p.val < q.val) := by
  have hall : allCells.Pairwise (fun p q : Cell => p.val < q.val) := by
    have := List.pairwise_lt_finRange 81
    exact this.imp (fun h => h)
  exact hall.sublist (List.filter_sublist _)

/-- C8: the choice point of `search` (main.py lines 214-216) picks, among
the cells with more than one candidate, one with minimal candidate count,
breaking ties by the fixed row-major order over cells: Python `min` returns
the first minimal element of `unsolved`, which lists cells in `CELLS`
order. -/
theorem mrv_picks_first_minimum (b : Board) (c : Cell) (h : mrvCell b = some c) :
    mrvSpec b c = true := by
  rw [mrvCell] at h
  rcases hl : unsolvedList b with _ | ⟨x, xs⟩
  · rw [hl] at h
    exact absurd h (by rw [pyMinBy]; simp)
  · rw [hl, pyMinBy] at h
    have hp : (x :: xs).Pairwise (fun p q : Cell => p.val < q.val) := by
      have := unsolvedList_pairwise b
      rwa [hl] at this
    obtain ⟨h1, h2, h3, h4⟩ :=
      pyMinFold (fun s => (b s).card) xs x hp c (Option.some.inj h)
    rw [mrvSpec]
    simp only [Bool.and_eq_true, List.all_eq_true, decide_eq_true_eq]
    refine ⟨⟨?_, ?_⟩, ?_⟩
    · rw [hl]
      rcases h1 with rfl | h1
      · exact List.mem_cons_self c xs
      · exact List.mem_cons_of_mem x h1
    · intro y hy
      rw [hl] at hy
      rcases List.mem_cons.mp hy with rfl | hy
      · exact h2.1
      · exact h2.2 y hy
    · intro y hy hval
      rw [hl] at hy
      rcases List.mem_cons.mp hy with rfl | hy
      · have hne : c ≠ y := fun hh => by rw [hh] at hval; omega
        exact h3 hne
      · exact h4 y hy hval

/-- Witness for C8: on the fresh board all 81 cells have nine candidates,
and the chosen cell is "A1", the first in row-major order. -/
theorem mrv_picks_first_minimum_witness : mrvSpec blankB 0 = true :=
  mrv_picks_first_minimum blankB 0 (by decide)


/-! ## Claim C2 -/

/-- `true` iff `r` is a normal `hidden_singles` return of `changed = ch`
with exactly the state `b`. -/
def sresOkAt (r : SRes) (b : Board) (ch : Bool) : Bool :=
  match r with
  | .ok b' ch' => boardEqB b' b && (ch' == ch)
  | _ => false

lemma sres_eq_ok {r : SRes} {b : Board} {ch : Bool}
    (h : sresOkAt r b ch = true) : r = .ok b ch := by
  cases r with
  | out => exact absurd h (by simp [sresOkAt])
  | fail => exact absurd h (by simp [sresOkAt])
  | ok b' ch' =>
    rw [sresOkAt, Bool.and_eq_true, beq_iff_eq] at h
    rw [boardEqB_iff.mp h.1, h.2]

/-- On the fresh board no unit has a digit with exactly one place (every
digit has nine places in every unit), so the `hidden_singles` scan makes no
assignment and no change at any fuel. -/
lemma hsGo_no_singles (n : Nat) (ch : Bool) :
    ∀ l, (∀ p ∈ l,
        ((p.1 : List Cell).filter (fun s => decide ((p.2 : Nat) ∈ blankB s))).length ≠ 1) →
      hsGo n blankB ch l = .ok blankB ch := by
  intro l
  induction l with
  | nil => intro _; rw [hsGo]
  | cons hd tl ih =>
    intro hno
    obtain ⟨u, d⟩ := hd
    rw [hsGo]
    split
    · rename_i s0 hfil
      exact absurd (by rw [hfil]; rfl)
        (hno (u, d) (List.mem_cons_self (u, d) tl))
    · exact ih (fun p hp => hno p (List.mem_cons_of_mem (u, d) hp))

lemma hiddenSingles_blank (n : Nat) : hiddenSingles n blankB = .ok blankB false := by
  rw [hiddenSingles]
  exact hsGo_no_singles n false hsPairs (by decide)

/-- C2 is violated by the code: on the all-blank board (the 81-dot puzzle)
`hidden_singles` completes without any contradiction and reports no change,
yet `propagate_all` — whose docstring promises "return False on
contradiction" — returns `False`, because the check
`if self.hidden_singles() is False` (main.py line 185) cannot tell the
no-change report from the contradiction signal. -/
theorem propagate_all_fails_without_contradiction (n : Nat) :
    hiddenSingles (n + 1) blankB = SRes.ok blankB false
    ∧ propagateAll (n + 1) blankB = PRes.failed := by
  refine ⟨hiddenSingles_blank (n + 1), ?_⟩
  rw [propagateAll, hiddenSingles_blank (n + 1)]
  rfl

/-! ## Claim C3 -/

/-- C3 is violated by the code: for every board in which each cell keeps at
least one digit candidate, `pointing_pairs` raises `StopIteration` instead
of returning a status.  Its first loop (main.py lines 98-112) always finds
a `rows[(r, d)]` entry with 1 to 3 cells — any candidate of box cell "A1"
yields one — and line 112 then evaluates `next()` on a generator that is
empty, because every unit of `cells[0]` intersects the box. -/
theorem pointing_pairs_raises (b : Board)
    (h : allCells.all (fun c => decide ((b c ∩ Digits).Nonempty)) = true) :
    pointingPairs b = none := by
  rw [pointingPairs, if_pos]
  rw [List.any_eq_true]
  refine ⟨BOX_UNITS.headD [], by decide, ?_⟩
  rw [List.all_eq_true] at h
  have h0 : ((b 0 ∩ Digits)).Nonempty :=
    of_decide_eq_true (h 0 (List.mem_finRange 0))
  obtain ⟨d, hd⟩ := h0
  rw [Finset.mem_inter] at hd
  have hdl : d ∈ digitsList := by
    have hDig : Digits = digitsList.toFinset := by decide
    rw [hDig] at hd
    exact List.mem_toFinset.mp hd.2
  rw [boxTrigger, List.any_eq_true]
  refine ⟨0, by decide, ?_⟩
  rw [List.any_eq_true]
  refine ⟨d, hdl, ?_⟩
  have hmem : (0 : Cell) ∈ ppRowEntry b (BOX_UNITS.headD []) 0 d := by
    rw [ppRowEntry, List.mem_filter]
    refine ⟨by decide, ?_⟩
    rw [Bool.and_eq_true, decide_eq_true_eq, decide_eq_true_eq]
    exact ⟨by decide, hd.1⟩
  have hlen1 : 1 ≤ (ppRowEntry b (BOX_UNITS.headD []) 0 d).length :=
    List.length_pos.mpr (List.ne_nil_of_mem hmem)
  have hlen3 : (ppRowEntry b (BOX_UNITS.headD []) 0 d).length ≤ 3 := by
    have hcnt : (((BOX_UNITS.headD []).filter (fun s => decide (rowOf s = 0))).length) = 3 :=
      by decide
    have hmono : (ppRowEntry b (BOX_UNITS.headD []) 0 d).length
        ≤ ((BOX_UNITS.headD []).filter (fun s => decide (rowOf s = 0))).length := by
      rw [ppRowEntry, ← List.countP_eq_length_filter, ← List.countP_eq_length_filter]
      apply List.countP_mono_left
      intro s hs hp
      rw [Bool.and_eq_true] at hp
      exact hp.1
    omega
  simp only [Bool.and_eq_true, decide_eq_true_eq]
  exact ⟨hlen1, hlen3⟩

/-- Witness for C3 at a concrete input: the all-blank board. -/
theorem pointing_pairs_raises_witness : pointingPairs blankB = none :=
  pointing_pairs_raises blankB (by decide)


/-! ## Claim C1 -/

/-- Every cell lies in some box. -/
lemma cell_in_some_box : ∀ s : Cell, ∃ box ∈ BOX_UNITS, s ∈ box := by decide

/-- Each box meets each row in at most three cells. -/
lemma box_row_le_three : ∀ box ∈ BOX_UNITS, ∀ r ∈ List.range 9,
    (box.filter (fun s => decide (rowOf s = r))).length ≤ 3 := by decide

lemma ppRowEntry_le_rowcount (b : Board) (box : List Cell) (r d : Nat) :
    (ppRowEntry b box r d).length
      ≤ (box.filter (fun s => decide (rowOf s = r))).length := by
  rw [ppRowEntry, ← List.countP_eq_length_filter, ← List.countP_eq_length_filter]
  apply List.countP_mono_left
  intro s hs hp
  rw [Bool.and_eq_true] at hp
  exact hp.1

/-- If no box produces a `rows` entry with 1 to 3 cells (the only way
`pointing_pairs` gets past its first loop without raising), then no cell
holds any digit 1-9 at all. -/
lemma no_digit_of_no_trigger {b : Board}
    (hno : ∀ box ∈ BOX_UNITS, boxTrigger b box = false) :
    ∀ s : Cell, ∀ d ∈ digitsList, d ∉ b s := by
  intro s d hd hmem
  obtain ⟨box, hbox, hsbox⟩ := cell_in_some_box s
  have hr : rowOf s ∈ List.range 9 := List.mem_range.mpr (by
    have hlt := s.isLt
    rw [rowOf]
    omega)
  have htrig := hno box hbox
  rw [boxTrigger] at htrig
  have htrue : (List.range 9).any (fun r => digitsList.any (fun d =>
      let len := (ppRowEntry b box r d).length
      decide (1 ≤ len) && decide (len ≤ 3))) = true := by
    rw [List.any_eq_true]
    refine ⟨rowOf s, hr, ?_⟩
    rw [List.any_eq_true]
    refine ⟨d, hd, ?_⟩
    have hmem2 : s ∈ ppRowEntry b box (rowOf s) d := by
      rw [ppRowEntry, List.mem_filter]
      refine ⟨hsbox, ?_⟩
      rw [Bool.and_eq_true, decide_eq_true_eq, decide_eq_true_eq]
      exact ⟨rfl, hmem⟩
    have h1 : 1 ≤ (ppRowEntry b box (rowOf s) d).length :=
      List.length_pos.mpr (List.ne_nil_of_mem hmem2)
    have h3 : (ppRowEntry b box (rowOf s) d).length ≤ 3 :=
      Nat.le_trans (ppRowEntry_le_rowcount b box (rowOf s) d)
        (box_row_le_three box hbox (rowOf s) hr)
    simp only [Bool.and_eq_true, decide_eq_true_eq]
    exact ⟨h1, h3⟩
  rw [htrue] at htrig
  exact absurd htrig (by simp)

lemma ppLineElim_no_digit {b : Board} {d : Nat} (box : List Cell)
    (hd : ∀ s : Cell, d ∉ b s) :
    ∀ l ch, ppLineElim box d b ch l = (b, ch) := by
  intro l
  induction l with
  | nil => intro ch; rw [ppLineElim]
  | cons s rest ih =>
    intro ch
    rw [ppLineElim, if_neg (fun hc => hd s hc.2)]
    exact ih ch

lemma ppCleanStep_no_digit {b : Board} {d : Nat} (box : List Cell)
    (hd : ∀ s : Cell, d ∉ b s) (ch : Bool) :
    ppCleanStep box d (b, ch) = (b, ch) := by
  have hpos : box.filter (fun s => decide (d ∈ b s)) = [] :=
    List.filter_eq_nil_iff.mpr (fun s _ => by rw [decide_eq_true_eq]; exact hd s)
  simp only [ppCleanStep, hpos]
  rfl

lemma ppFinalStep_no_digit {b : Board} {d : Nat} (box : List Cell)
    (hd : ∀ s : Cell, d ∉ b s) (ch : Bool) :
    ppFinalStep box d (b, ch) = (b, ch) := by
  have hpos : box.filter (fun s => decide (d ∈ b s)) = [] :=
    List.filter_eq_nil_iff.mpr (fun s _ => by rw [decide_eq_true_eq]; exact hd s)
  simp only [ppFinalStep, hpos]
  rfl

lemma ppClean_no_digit {b : Board}
    (hd : ∀ s : Cell, ∀ d ∈ digitsList, d ∉ b s) : ppClean b = (b, false) := by
  have hfoldc : ∀ pl : List (List Cell × Nat), (∀ p ∈ pl, p.2 ∈ digitsList) → ∀ ch : Bool,
      pl.foldl (fun st p => ppCleanStep p.1 p.2 st) (b, ch) = (b, ch) := by
    intro pl
    induction pl with
    | nil => intro _ ch; rw [List.foldl_nil]
    | cons p rest ih =>
      intro hin ch
      rw [List.foldl_cons,
        ppCleanStep_no_digit p.1 (fun s => hd s p.2 (hin p (List.mem_cons_self p rest))) ch]
      exact ih (fun q hq => hin q (List.mem_cons_of_mem p hq)) ch
  have hfoldf : ∀ pl : List (List Cell × Nat), (∀ p ∈ pl, p.2 ∈ digitsList) → ∀ ch : Bool,
      pl.foldl (fun st p => ppFinalStep p.1 p.2 st) (b, ch) = (b, ch) := by
    intro pl
    induction pl with
    | nil => intro _ ch; rw [List.foldl_nil]
    | cons p rest ih =>
      intro hin ch
      rw [List.foldl_cons,
        ppFinalStep_no_digit p.1 (fun s => hd s p.2 (hin p (List.mem_cons_self p rest))) ch]
      exact ih (fun q hq => hin q (List.mem_cons_of_mem p hq)) ch
  have hpl : ∀ p ∈ (BOX_UNITS.map (fun box => digitsList.map (fun d => (box, d)))).flatten,
      p.2 ∈ digitsList := by decide
  rw [ppClean, hfoldc _ hpl false, ppFinal, hfoldf _ hpl false]

/-- When `pointing_pairs` manages to return at all, it returns
`changed = False` with the board untouched: returning requires that no box
cell holds any digit, and then `_pointing_pairs_clean` and
`_pointing_pairs_final` find nothing to do. -/
lemma pointingPairs_some_unchanged {b : Board} {pr : Board × Bool}
    (h : pointingPairs b = some pr) : pr = (b, false) := by
  rw [pointingPairs] at h
  by_cases htrig : BOX_UNITS.any (fun box => boxTrigger b box) = true
  · rw [if_pos htrig] at h
    exact absurd h (by simp)
  · rw [if_neg htrig] at h
    have hno : ∀ box ∈ BOX_UNITS, boxTrigger b box = false := by
      intro box hbox
      by_contra hb
      rw [Bool.not_eq_false] at hb
      exact htrig (List.any_eq_true.mpr ⟨box, hbox, hb⟩)
    have hclean : ppClean b = (b, false) :=
      ppClean_no_digit (no_digit_of_no_trigger hno)
    rw [hclean] at h
    exact (Option.some.inj h).symm

/-- `propagate_all` can never return `True`: a completed round requires
`pointing_pairs` to return, which only happens with `changed = False`
(`pointingPairs_some_unchanged`), and the `is False` check then reports
failure before the snapshot comparison is ever reached. -/
lemma propagateAll_never_ok : ∀ n (b b' : Board), propagateAll n b ≠ .ok b' := by
  intro n b b' h
  cases n with
  | zero => rw [propagateAll] at h; exact absurd h (by simp)
  | succ n =>
    rw [propagateAll] at h
    split at h
    · exact absurd h (by simp)
    · exact absurd h (by simp)
    · rename_i b1 ch1
      split at h
      · exact absurd h (by simp)
      · split at h
        · exact absurd h (by simp)
        · rename_i b2 ch2
          split at h
          · exact absurd h (by simp)
          · split at h
            · exact absurd h (by simp)
            · rename_i b3 ch3 heq
              have hpr := pointingPairs_some_unchanged heq
              have hch3 : ch3 = false := congrArg Prod.snd hpr
              split at h
              · exact absurd h (by simp)
              · rename_i hne
                exact hne hch3

/-- `search` can never return a solution, since it only does so after
`propagate_all` returns `True`. -/
lemma search_never_sol : ∀ n (b b' : Board), search n b ≠ .sol b' := by
  intro n b b' h
  cases n with
  | zero => rw [search] at h; exact absurd h (by simp)
  | succ n =>
    rw [search] at h
    split at h
    · exact absurd h (by simp)
    · exact absurd h (by simp)
    · exact absurd h (by simp)
    · rename_i b1 heq
      exact propagateAll_never_ok (n + 1) b b1 heq

/-- The spec's end-to-end scenario input (section 8, scenario 1): the
well-known easy puzzle starting "53..7....", which has the unique solution
"534678912672195348198342567859761423426853791713924856961537284287419635345286179". -/
def easyPuzzle : List Char := String.toList
  "53..7....6..195....98....6.8...6...34..8.3..17...2...6.6....28....419..5....8..79"

/-- C1 is violated by the code: `solve` never returns normally on any
board whatsoever — `propagate_all` conflates the strategies' no-change
report with their contradiction signal and `pointing_pairs` raises on any
board with candidates, so `search` always yields `None` or an exception
and `solve` raises.  In particular on the spec's easy puzzle
(`easyPuzzle`): whatever board its construction produces, `solve` raises
(`ValueError("No solution found ...")` or the uncaught `StopIteration`)
instead of returning the solution string. -/
theorem solve_never_succeeds : ∀ n b, (solve n b).success = false := by
  intro n b
  rw [solve]
  split
  · rename_i b' heq
    exact absurd heq (search_never_sol n b b')
  · rfl
  · rfl
  · rfl


/-! ## Claim C6 -/

/-- `true` iff `r` is a successful construction with exactly the state `b`. -/
def initOkAt (r : InitRes) (b : Board) : Bool :=
  match r with
  | .ok b' => boardEqB b' b
  | _ => false

lemma init_eq_ok {r : InitRes} {b : Board} (h : initOkAt r b = true) : r = .ok b := by
  cases r with
  | lenErr => exact absurd h (by simp [initOkAt])
  | contraErr => exact absurd h (by simp [initOkAt])
  | out => exact absurd h (by simp [initOkAt])
  | ok b' => rw [initOkAt] at h; rw [boardEqB_iff.mp h]

/-- A cell that already lost digit `d` (while staying nonempty) makes the
clue loop fail at its turn: the assign there is rejected, so construction
reports the contradiction. -/
lemma initLoop_blocked (n : Nat) :
    ∀ (l : List (Cell × Char)) (b : Board) (cj : Cell) (ch : Char),
      (cj, ch) ∈ l → ch ∈ digitChars →
      charToDigit ch ∉ b cj → b cj ≠ ∅ → totalCands b + 3 ≤ n →
      initLoop n b l = .contraErr := by
  intro l
  induction l with
  | nil => intro b cj ch hmem; exact absurd hmem (List.not_mem_nil _)
  | cons hd tl ih =>
    intro b cj ch hmem hdig hnot hne hfuel
    obtain ⟨c0, ch0⟩ := hd
    rw [initLoop]
    by_cases hd0 : ch0 ∈ digitChars
    · rw [if_pos hd0]
      rcases hres : assign n b c0 (charToDigit ch0) with _ | _ | b1
      · exact absurd hres (assign_noOut n b c0 _ hfuel)
      · rfl
      · obtain ⟨g, _⟩ := assign_ok n b c0 _ b1 hres
        rcases List.mem_cons.mp hmem with heq | hmem
        · exfalso
          obtain ⟨h1, h2⟩ := Prod.mk.injEq .. ▸ heq
          subst h1
          subst h2
          exact absurd hres (by
            rw [assign_absent_digit_fails n b cj _ hnot hne hfuel]
            simp)
        · refine ih b1 cj ch hmem hdig (fun hin => hnot (g.shrink cj hin))
            (g.keeps cj hne) ?_
          have := totalCands_mono g.shrink
          omega
    · rw [if_neg hd0]
      rcases List.mem_cons.mp hmem with heq | hmem
      · exfalso
        obtain ⟨_, h2⟩ := Prod.mk.injEq .. ▸ heq
        subst h2
        exact hd0 hdig
      · exact ih b cj ch hmem hdig hnot hne hfuel

/-- The contradiction-on-load invariant: nonempty cells, and any pinned
cell has had its value removed from all its peers. -/
def LoadInv (b : Board) : Prop :=
  (∀ x, b x ≠ ∅) ∧ (∀ x e, b x = {e} → ∀ p ∈ peersOf x, e ∉ b p)

lemma loadInv_blank : LoadInv blankB := by
  constructor
  · intro x
    rw [blankB]
    decide
  · intro x e hx p hp hin
    have h9 : (blankB x).card = 9 := by
      show Digits.card = 9
      decide
    rw [hx, Finset.card_singleton] at h9
    omega

lemma loadInv_assign {n : Nat} {b b' : Board} {c : Cell} {d : Nat}
    (hinv : LoadInv b) (h : assign n b c d = .ok b') : LoadInv b' := by
  obtain ⟨g, _⟩ := assign_ok n b c d b' h
  refine ⟨fun x => g.keeps x (hinv.1 x), fun x e hx p hp hin => ?_⟩
  by_cases hbx : b x = {e}
  · exact hinv.2 x e hbx p hp (g.shrink p hin)
  · exact g.clears x e hx hbx p hp hin

/-- Once the first of two same-digit peer clues has been committed, the
board blocks the second one, and the clue loop ends in the contradiction
error. -/
lemma initLoop_conflict (n : Nat) :
    ∀ (l1 : List (Cell × Char)) (b : Board) (ci cj : Cell) (ch : Char)
      (l2 : List (Cell × Char)),
      LoadInv b → (cj, ch) ∈ l2 → ch ∈ digitChars → cj ∈ peersOf ci →
      totalCands b + 3 ≤ n →
      initLoop n b (l1 ++ (ci, ch) :: l2) = .contraErr := by
  intro l1
  induction l1 with
  | nil =>
    intro b ci cj ch l2 hinv hmem hdig hpeer hfuel
    rw [List.nil_append, initLoop, if_pos hdig]
    rcases hres : assign n b ci (charToDigit ch) with _ | _ | b1
    · exact absurd hres (assign_noOut n b ci _ hfuel)
    · rfl
    · obtain ⟨g, _⟩ := assign_ok n b ci _ b1 hres
      have hsing : b1 ci = {charToDigit ch} := assign_ok_singleton (hinv.1 ci) hres
      have hinv1 : LoadInv b1 := loadInv_assign hinv hres
      have hnot : charToDigit ch ∉ b1 cj := hinv1.2 ci _ hsing cj hpeer
      refine initLoop_blocked n l2 b1 cj ch hmem hdig hnot (hinv1.1 cj) ?_
      have := totalCands_mono g.shrink
      omega
  | cons hd tl ih =>
    intro b ci cj ch l2 hinv hmem hdig hpeer hfuel
    obtain ⟨c0, ch0⟩ := hd
    rw [List.cons_append, initLoop]
    by_cases hd0 : ch0 ∈ digitChars
    · rw [if_pos hd0]
      rcases hres : assign n b c0 (charToDigit ch0) with _ | _ | b1
      · exact absurd hres (assign_noOut n b c0 _ hfuel)
      · rfl
      · obtain ⟨g, _⟩ := assign_ok n b c0 _ b1 hres
        refine ih b1 ci cj ch l2 (loadInv_assign hinv hres) hmem hdig hpeer ?_
        have := totalCands_mono g.shrink
        omega
    · rw [if_neg hd0]
      exact ih b ci cj ch l2 hinv hmem hdig hpeer hfuel

/-- A successful clue loop only shrank the board, kept nonempty cells
nonempty, and pinned every digit clue it processed to that digit. -/
lemma initLoop_ok_facts (n : Nat) :
    ∀ (l : List (Cell × Char)) (b b' : Board), initLoop n b l = .ok b' →
      Shrink b b' ∧ KeepsNonempty b b'
      ∧ ((∀ x, b x ≠ ∅) →
          ∀ p ∈ l, p.2 ∈ digitChars → b' p.1 = {charToDigit p.2}) := by
  intro l
  induction l with
  | nil =>
    intro b b' h
    rw [initLoop] at h
    cases h
    exact ⟨fun _ => Finset.Subset.refl _, fun _ hx => hx, by simp⟩
  | cons hd tl ih =>
    intro b b' h
    obtain ⟨c0, ch0⟩ := hd
    rw [initLoop] at h
    by_cases hd0 : ch0 ∈ digitChars
    · rw [if_pos hd0] at h
      rcases hres : assign n b c0 (charToDigit ch0) with _ | _ | b1 <;> rw [hres] at h
      · exact absurd h (by simp)
      · exact absurd h (by simp)
      · obtain ⟨g, _⟩ := assign_ok n b c0 _ b1 hres
        obtain ⟨hs, hk, hcom⟩ := ih b1 b' h
        refine ⟨fun x => (hs x).trans (g.shrink x), fun x hx => hk x (g.keeps x hx), ?_⟩
        intro hne p hp hpd
        rcases List.mem_cons.mp hp with heq | hp
        · subst heq
          have hsing : b1 c0 = {charToDigit ch0} := assign_ok_singleton (hne c0) hres
          have hsub : b' c0 ⊆ {charToDigit ch0} := by rw [← hsing]; exact hs c0
          have hne' : b' c0 ≠ ∅ := hk c0 (by rw [hsing]; exact Finset.singleton_ne_empty _)
          obtain ⟨f, hf⟩ := Finset.nonempty_iff_ne_empty.mpr hne'
          have hfd := Finset.mem_singleton.mp (hsub hf)
          subst hfd
          apply Finset.Subset.antisymm hsub
          intro e he
          rw [Finset.mem_singleton] at he
          subst he
          exact hf
        · exact hcom (fun x => g.keeps x (hne x)) p hp hpd
    · rw [if_neg hd0] at h
      obtain ⟨hs, hk, hcom⟩ := ih b b' h
      refine ⟨hs, hk, ?_⟩
      intro hne p hp hpd
      rcases List.mem_cons.mp hp with heq | hp
      · subst heq
        exact absurd hpd hd0
      · exact hcom hne p hp hpd

/-- C6 as amended: `__init__` strips the string first (main.py line 27), so
the length check applies to the stripped string.  (1) If the stripped
length is not 81, construction fails with the malformed-input error.
(2) If two peer cells are given the same digit clue, construction fails
with the contradiction-on-load error.  (3) When construction succeeds,
every digit clue of the stripped grid has been committed through `assign`:
the clue's cell is pinned to exactly that digit. -/
theorem fromString_spec (n : Nat) (s : List Char) :
    ((pyStrip s).length ≠ 81 → fromString n s = .lenErr)
    ∧ (∀ (l1 : List (Cell × Char)) (ci : Cell) (ch : Char)
        (l2 : List (Cell × Char)) (cj : Cell),
        (pyStrip s).length = 81 →
        allCells.zip (pyStrip s) = l1 ++ (ci, ch) :: l2 →
        (cj, ch) ∈ l2 → ch ∈ digitChars → cj ∈ peersOf ci →
        732 ≤ n → fromString n s = .contraErr)
    ∧ (∀ b', fromString n s = .ok b' →
        ∀ p ∈ allCells.zip (pyStrip s), p.2 ∈ digitChars →
          b' p.1 = {charToDigit p.2}) := by
  refine ⟨?_, ?_, ?_⟩
  · intro hlen
    simp only [fromString]
    rw [if_pos hlen]
  · intro l1 ci ch l2 cj hlen81 hsplit hmem hdig hpeer hfuel
    simp only [fromString]
    rw [if_neg (fun hcon => hcon hlen81), hsplit]
    refine initLoop_conflict n l1 blankB ci cj ch l2 loadInv_blank hmem hdig hpeer ?_
    have htc : totalCands blankB = 729 := by decide
    omega
  · intro b' hok p hp hpd
    simp only [fromString] at hok
    by_cases hlen : (pyStrip s).length ≠ 81
    · rw [if_pos hlen] at hok
      exact absurd hok (by simp)
    · rw [if_neg hlen] at hok
      exact (initLoop_ok_facts n _ blankB b' hok).2.2 loadInv_blank.1 p hp hpd

/-- An 82-character input: 81 blank-cell dots and a trailing newline. -/
def dots81Newline : List Char := List.replicate 81 '.' ++ ['\n']

/-- C6 counterexample: the claim's "fails for every string whose length is
not 81" is false — `__init__` strips the string (main.py line 27) *before*
measuring it (line 28), so this 82-character input constructs
successfully. -/
theorem fromString_length_not_checked :
    dots81Newline.length = 82 ∧ fromString 3 dots81Newline = InitRes.ok blankB :=
  ⟨by decide, init_eq_ok (by decide)⟩

/-- An 80-character input: too short even after stripping. -/
def dots80 : List Char := List.replicate 80 '.'

/-- An input cluing the digit 5 into both "A1" and its row peer "A2". -/
def conflictStr : List Char := '5' :: '5' :: List.replicate 79 '.'

/-- An input whose single clue pins "A1" to 5. -/
def oneClueStr : List Char := '5' :: List.replicate 80 '.'

/-- Witness for the amended C6, applying each part at a concrete input: a
too-short string is rejected with the length error, two same-digit peer
clues end in the contradiction error, and after a successful construction
the clue cell "A1" is pinned to its clue digit. -/
theorem fromString_spec_witness :
    fromString 3 dots80 = InitRes.lenErr
    ∧ fromString 732 conflictStr = InitRes.contraErr
    ∧ fiveAssignedB 0 = {5} :=
  ⟨(fromString_spec 3 dots80).1 (by decide),
   (fromString_spec 732 conflictStr).2.1 [] 0 '5'
     ((allCells.zip (pyStrip conflictStr)).drop 1) 1
     (by decide) (by decide) (by decide) (by decide) (by decide) (by decide),
   (fromString_spec 20 oneClueStr).2.2 fiveAssignedB (init_eq_ok (by decide))
     (0, '5') (by decide) (by decide)⟩

/-! ## Claim C9

Round trip through `as_string` and the constructor.  The key soundness
fact: on a board compatible with a total valid solution, eliminating a
digit that the solution does not put in that cell can never fail, and
assigning the solution's own digit succeeds — so re-assigning the clues of
a solved board reproduces it exactly. -/

lemma Digits_eq_list : Digits = digitsList.toFinset := by decide

lemma digitChar_props : ∀ d ∈ digitsList,
    isPySpace (digitChar d) = false ∧ digitChar d ∈ digitChars
      ∧ charToDigit (digitChar d) = d := by
  decide

lemma units_len_nodup : ∀ u ∈ allUnits, u.length = 9 ∧ u.Nodup := by decide

/-- `strip` is the identity on a string with no leading or trailing
whitespace. -/
lemma pyStrip_id (l : List Char) (h : ∀ ch ∈ l, isPySpace ch = false) :
    pyStrip l = l := by
  have h1 : ∀ (m : List Char), (∀ ch ∈ m, isPySpace ch = false) →
      m.dropWhile isPySpace = m := by
    intro m hm
    cases m with
    | nil => rfl
    | cons a t => simp [List.dropWhile_cons, hm a (List.mem_cons_self a t)]
  rw [pyStrip, h1 l h, h1 l.reverse (fun ch hch => h ch (List.mem_reverse.mp hch)),
    List.reverse_reverse]

lemma mem_foldr_append (ls : List (List Cell)) (x : Cell) :
    x ∈ ls.foldr (· ++ ·) [] ↔ ∃ u ∈ ls, x ∈ u := by
  induction ls with
  | nil => simp
  | cons u us ih =>
    rw [List.foldr_cons, List.mem_append, ih]
    constructor
    · rintro (hx | ⟨v, hv, hxv⟩)
      · exact ⟨u, List.mem_cons_self u us, hx⟩
      · exact ⟨v, List.mem_cons_of_mem u hv, hxv⟩
    · rintro ⟨v, hv, hxv⟩
      rcases List.mem_cons.mp hv with rfl | hv
      · exact Or.inl hxv
      · exact Or.inr ⟨v, hv, hxv⟩

lemma only_mem_of_card_one {s : Finset Nat} (h : s.card = 1) : only s ∈ s := by
  nth_rewrite 1 [eq_singleton_only h]
  exact Finset.mem_singleton_self _

section Soundness

variable (σ : Cell → Nat)

/-- Compatibility of a board with a total solution `σ`: every cell still
lists its solution value, and (per the spec's data model, section 3) lists
only digits. -/
def PC (b : Board) : Prop := (∀ x, σ x ∈ b x) ∧ (∀ x, b x ⊆ Digits)

/-- `σ` places a digit in every cell. -/
def SolDigits : Prop := ∀ x, σ x ∈ Digits

/-- `σ` never repeats a digit inside a unit. -/
def SolDistinct : Prop := ∀ u ∈ allUnits, ∀ x ∈ u, ∀ y ∈ u, x ≠ y → σ x ≠ σ y

/-- A distinct assignment of digits to the 9 cells of a unit covers all 9
digits (pigeonhole). -/
lemma sol_coverage (hdig : SolDigits σ) (hdist : SolDistinct σ) :
    ∀ u ∈ allUnits, ∀ d ∈ Digits, ∃ x ∈ u, σ x = d := by
  intro u hu d hd
  have hlen := units_len_nodup u hu
  have hmapnd : (u.map σ).Nodup := by
    refine List.Nodup.map_on ?_ hlen.2
    intro x hx y hy hxy
    by_contra hne
    exact hdist u hu x hx y hy hne hxy
  have hsub : (u.map σ).toFinset ⊆ Digits := by
    intro e he
    rw [List.mem_toFinset] at he
    obtain ⟨x, _, rfl⟩ := List.mem_map.mp he
    exact hdig x
  have hcard : (u.map σ).toFinset.card = 9 := by
    rw [List.toFinset_card_of_nodup hmapnd, List.length_map, hlen.1]
  have h9 : Digits.card = 9 := by decide
  have heq : (u.map σ).toFinset = Digits :=
    Finset.eq_of_subset_of_card_le hsub (by omega)
  rw [← heq, List.mem_toFinset, List.mem_map] at hd
  obtain ⟨x, hx, hs⟩ := hd
  exact ⟨x, hx, hs⟩

/-- A peer of `c` never carries `c`'s solution digit. -/
lemma peer_not_sol_eq (hdist : SolDistinct σ) {c p : Cell} (hp : p ∈ peersOf c) :
    σ p ≠ σ c := by
  rw [peersOf, List.mem_filter, decide_eq_true_eq] at hp
  obtain ⟨u, hu, hpu⟩ := (mem_foldr_append _ _).mp hp.2.2
  rw [unitsOf, List.mem_filter, decide_eq_true_eq] at hu
  exact hdist u hu.1 p hpu c hu.2 hp.2.1

/-- A sequence of eliminations of non-solution digits never fails and
preserves compatibility. -/
lemma elimSeqF_safe {el : Board → Cell → Nat → ERes}
    (hel : ∀ b c d, PC σ b → d ∈ Digits → d ≠ σ c →
      (el b c d ≠ .fail ∧ ∀ b', el b c d = .ok b' → PC σ b')) :
    ∀ l b, PC σ b → (∀ p ∈ l, p.2 ∈ Digits ∧ p.2 ≠ σ p.1) →
      elimSeqF el b l ≠ .fail ∧ ∀ b', elimSeqF el b l = .ok b' → PC σ b' := by
  intro l
  induction l with
  | nil =>
    intro b hb _
    rw [elimSeqF]
    exact ⟨by simp, fun b' h => by cases h; exact hb⟩
  | cons hd tl ih =>
    intro b hb hl
    obtain ⟨c, d⟩ := hd
    have hcd := hl (c, d) (List.mem_cons_self _ _)
    have h1 := hel b c d hb hcd.1 hcd.2
    rw [elimSeqF]
    rcases hres : el b c d with _ | _ | b1
    · exact ⟨by simp, fun b' h => absurd h (by simp)⟩
    · exact absurd hres h1.1
    · exact ih b1 (h1.2 b1 hres) (fun p hp => hl p (List.mem_cons_of_mem _ hp))

/-- Assigning a cell its own solution digit never fails and preserves
compatibility: the eliminations it runs only remove non-solution
candidates of that cell. -/
lemma assignF_safe {el : Board → Cell → Nat → ERes}
    (hel : ∀ b c d, PC σ b → d ∈ Digits → d ≠ σ c →
      (el b c d ≠ .fail ∧ ∀ b', el b c d = .ok b' → PC σ b')) :
    ∀ b c, PC σ b → assignF el b c (σ c) ≠ .fail
      ∧ ∀ b', assignF el b c (σ c) = .ok b' → PC σ b' := by
  intro b c hb
  rw [assignF]
  refine elimSeqF_safe σ hel _ b hb ?_
  intro p hp
  rw [List.mem_map] at hp
  obtain ⟨e, he, rfl⟩ := hp
  rw [ascList_mem, Finset.mem_erase] at he
  exact ⟨hb.2 c he.2, he.1⟩

lemma unitLoopF_cons_nil {asg : Board → Cell → Nat → ERes} {b : Board}
    {u : List Cell} {us : List (List Cell)} {d : Nat}
    (hfil : u.filter (fun s => decide (d ∈ b s)) = []) :
    unitLoopF asg b (u :: us) d = .fail := by
  rw [unitLoopF, hfil]

lemma unitLoopF_cons_single {asg : Board → Cell → Nat → ERes} {b : Board}
    {u : List Cell} {us : List (List Cell)} {d : Nat} {s0 : Cell}
    (hfil : u.filter (fun s => decide (d ∈ b s)) = [s0]) :
    unitLoopF asg b (u :: us) d =
      match asg b s0 d with
      | .out => .out
      | .fail => .fail
      | .ok b' => unitLoopF asg b' us d := by
  rw [unitLoopF, hfil]

lemma unitLoopF_cons_many {asg : Board → Cell → Nat → ERes} {b : Board}
    {u : List Cell} {us : List (List Cell)} {d : Nat} {s0 s1 : Cell}
    {rest : List Cell}
    (hfil : u.filter (fun s => decide (d ∈ b s)) = s0 :: s1 :: rest) :
    unitLoopF asg b (u :: us) d = unitLoopF asg b us d := by
  rw [unitLoopF, hfil]

/-- The hidden-single scan of `eliminate` over the cell's units never fails
on a compatible board: the solution guarantees every digit a place in every
unit, and when that place is unique it is the solution's own cell, so the
triggered assign is safe. -/
lemma unitLoopF_safe {el : Board → Cell → Nat → ERes}
    (hdig : SolDigits σ) (hdist : SolDistinct σ)
    (hel : ∀ b c d, PC σ b → d ∈ Digits → d ≠ σ c →
      (el b c d ≠ .fail ∧ ∀ b', el b c d = .ok b' → PC σ b')) :
    ∀ us b d, PC σ b → d ∈ Digits → (∀ u ∈ us, u ∈ allUnits) →
      unitLoopF (assignF el) b us d ≠ .fail
        ∧ ∀ b', unitLoopF (assignF el) b us d = .ok b' → PC σ b' := by
  intro us
  induction us with
  | nil =>
    intro b d hb _ _
    rw [unitLoopF]
    exact ⟨by simp, fun b' h => by cases h; exact hb⟩
  | cons u tl ih =>
    intro b d hb hd hus
    obtain ⟨x, hx, hσx⟩ :=
      sol_coverage σ hdig hdist u (hus u (List.mem_cons_self _ _)) d hd
    have hxp : x ∈ u.filter (fun s => decide (d ∈ b s)) := by
      rw [List.mem_filter, decide_eq_true_eq]
      exact ⟨hx, by rw [← hσx]; exact hb.1 x⟩
    rcases hfil : u.filter (fun s => decide (d ∈ b s)) with _ | ⟨s0, _ | ⟨s1, rest⟩⟩
    · rw [hfil] at hxp
      exact absurd hxp (List.not_mem_nil x)
    · rw [unitLoopF_cons_single hfil]
      have hs0 : σ s0 = d := by
        have hx0 : x = s0 := by
          rw [hfil] at hxp
          exact List.mem_singleton.mp hxp
        rw [← hx0]
        exact hσx
      rw [← hs0]
      have ha := assignF_safe σ hel b s0 hb
      rcases hres : assignF el b s0 (σ s0) with _ | _ | b1
      · exact ⟨by simp, fun b' h => absurd h (by simp)⟩
      · exact absurd hres ha.1
      · exact ih b1 (σ s0) (ha.2 b1 hres) (by rw [hs0]; exact hd)
          (fun v hv => hus v (List.mem_cons_of_mem _ hv))
    · rw [unitLoopF_cons_many hfil]
      exact ih b d hb hd (fun v hv => hus v (List.mem_cons_of_mem _ hv))

/-- `eliminate` of a digit the solution does not place in that cell never
fails (at any fuel) and preserves compatibility. -/
lemma eliminate_safe (hdig : SolDigits σ) (hdist : SolDistinct σ) :
    ∀ n b c d, PC σ b → d ∈ Digits → d ≠ σ c →
      eliminate n b c d ≠ .fail
        ∧ ∀ b', eliminate n b c d = .ok b' → PC σ b' := by
  intro n
  induction n with
  | zero =>
    intro b c d _ _ _
    rw [eliminate]
    exact ⟨by simp, fun b' h => absurd h (by simp)⟩
  | succ n ih =>
    intro b c d hb hdd hdne
    rw [eliminate]
    by_cases hd : d ∈ b c
    · rw [if_pos hd]
      set b1 : Board := Function.update b c ((b c).erase d) with hb1
      have hb1c : b1 c = (b c).erase d := by
        rw [hb1]; exact Function.update_same c _ b
      have hpc1 : PC σ b1 := by
        constructor
        · intro x
          by_cases hxc : x = c
          · rw [hxc, hb1c]
            exact Finset.mem_erase.mpr ⟨fun hh => hdne hh.symm, hb.1 c⟩
          · rw [hb1, Function.update_noteq hxc]
            exact hb.1 x
        · intro x
          by_cases hxc : x = c
          · rw [hxc, hb1c]
            exact (Finset.erase_subset d (b c)).trans (hb.2 c)
          · rw [hb1, Function.update_noteq hxc]
            exact hb.2 x
      have hnon0 : ¬ (b1 c).card = 0 := by
        intro h0
        have hm : σ c ∈ b1 c := hpc1.1 c
        rw [Finset.card_eq_zero.mp h0] at hm
        exact absurd hm (Finset.not_mem_empty _)
      rw [if_neg hnon0]
      by_cases h1 : (b1 c).card = 1
      · rw [if_pos h1]
        have honly : only (b1 c) = σ c := by
          have hm : σ c ∈ b1 c := hpc1.1 c
          rw [eq_singleton_only h1, Finset.mem_singleton] at hm
          exact hm.symm
        have hpairs : ∀ p ∈ (peersOf c).map (fun p => (p, only (b1 c))),
            p.2 ∈ Digits ∧ p.2 ≠ σ p.1 := by
          intro p hp
          rw [List.mem_map] at hp
          obtain ⟨q, hq, rfl⟩ := hp
          refine ⟨by rw [honly]; exact hdig c, ?_⟩
          rw [honly]
          exact fun hh => peer_not_sol_eq σ hdist hq hh.symm
        have hseq := elimSeqF_safe σ ih
          ((peersOf c).map (fun p => (p, only (b1 c)))) b1 hpc1 hpairs
        rcases hres : elimSeqF (eliminate n) b1
            ((peersOf c).map (fun p => (p, only (b1 c)))) with _ | _ | b2
        · exact ⟨by simp, fun b' h => absurd h (by simp)⟩
        · exact absurd hres hseq.1
        · exact unitLoopF_safe σ hdig hdist ih (unitsOf c) b2 d (hseq.2 b2 hres)
            hdd (fun u hu => (List.mem_filter.mp hu).1)
      · rw [if_neg h1]
        exact unitLoopF_safe σ hdig hdist ih (unitsOf c) b1 d hpc1
          hdd (fun u hu => (List.mem_filter.mp hu).1)
    · rw [if_neg hd]
      exact ⟨by simp, fun b' h => by cases h; exact hb⟩

/-- `assign` of a cell's own solution digit never fails and preserves
compatibility. -/
lemma assign_safe (hdig : SolDigits σ) (hdist : SolDistinct σ) :
    ∀ n b c, PC σ b → assign n b c (σ c) ≠ .fail
      ∧ ∀ b', assign n b c (σ c) = .ok b' → PC σ b' := by
  intro n b c hb
  rcases n with _ | n
  · rw [assign]
    exact ⟨by simp, fun b' h => absurd h (by simp)⟩
  · rw [assign]
    exact assignF_safe σ (eliminate_safe σ hdig hdist n) b c hb

/-- With enough fuel, a clue loop whose digit clues all agree with the
solution runs to completion on a compatible board. -/
lemma initLoop_safe (hdig : SolDigits σ) (hdist : SolDistinct σ) (n : Nat) :
    ∀ (l : List (Cell × Char)) (b : Board), PC σ b →
      (∀ p ∈ l, p.2 ∈ digitChars → charToDigit p.2 = σ p.1) →
      totalCands b + 3 ≤ n →
      ∃ b', initLoop n b l = .ok b' ∧ PC σ b' := by
  intro l
  induction l with
  | nil =>
    intro b hb _ _
    exact ⟨b, by rw [initLoop], hb⟩
  | cons hd tl ih =>
    intro b hb hl hfuel
    obtain ⟨c0, ch0⟩ := hd
    rw [initLoop]
    by_cases hd0 : ch0 ∈ digitChars
    · rw [if_pos hd0]
      have hch : charToDigit ch0 = σ c0 := hl (c0, ch0) (List.mem_cons_self _ _) hd0
      rcases hres : assign n b c0 (charToDigit ch0) with _ | _ | b1
      · exact absurd hres (assign_noOut n b c0 _ hfuel)
      · exfalso
        rw [hch] at hres
        exact (assign_safe σ hdig hdist n b c0 hb).1 hres
      · have hpc1 : PC σ b1 := by
          have hres' := hres
          rw [hch] at hres'
          exact (assign_safe σ hdig hdist n b c0 hb).2 b1 hres'
        have hsh := (assign_ok n b c0 (charToDigit ch0) b1 hres).1.shrink
        obtain ⟨b2, hb2, hpc2⟩ := ih b1 hpc1
          (fun p hp => hl p (List.mem_cons_of_mem _ hp))
          (by have := totalCands_mono hsh; omega)
        exact ⟨b2, hb2, hpc2⟩
    · rw [if_neg hd0]
      exact ih b hb (fun p hp => hl p (List.mem_cons_of_mem _ hp)) hfuel

end Soundness

/-- C9: round trip through `as_string` and the constructor.  For every
solved board (every cell a singleton holding a digit — the spec's data
model, section 3 — and no unit collision, i.e. `is_solved` is true),
feeding `as_string()` of that board to the constructor succeeds and
reproduces exactly the original board, which is therefore already solved
and has identical `as_string()` output. -/
theorem asString_roundTrip (n : Nat) (b0 : Board)
    (hsol : isSolvedB b0 = true)
    (hdigB : allCells.all (fun x => decide (b0 x ⊆ Digits)) = true)
    (hfuel : 732 ≤ n) :
    fromString n (asString b0) = InitRes.ok b0
    ∧ ∀ b', fromString n (asString b0) = InitRes.ok b' →
        isSolvedB b' = true ∧ asString b' = asString b0 := by
  have hsol0 := hsol
  rw [isSolvedB, Bool.and_eq_true, List.all_eq_true] at hsol
  have hcards : ∀ x : Cell, (b0 x).card = 1 := fun x =>
    of_decide_eq_true (hsol.1 x (List.mem_finRange x))
  have hsub : ∀ x : Cell, b0 x ⊆ Digits := by
    rw [List.all_eq_true] at hdigB
    exact fun x => of_decide_eq_true (hdigB x (List.mem_finRange x))
  have hsing : ∀ x, b0 x = {only (b0 x)} := fun x => eq_singleton_only (hcards x)
  have hσdig : SolDigits (fun x => only (b0 x)) := fun x =>
    hsub x (only_mem_of_card_one (hcards x))
  have hdist : SolDistinct (fun x => only (b0 x)) := by
    intro u hu x hx y hy hxy hcontra
    have hv0 := hsol.2
    rw [validGrid, List.all_eq_true] at hv0
    have hv := hv0 u hu
    rw [pyAllDistinct, decide_eq_true_eq] at hv
    have hnd : (unitVals b0 u).Nodup := by
      have heq := List.Sublist.eq_of_length (List.dedup_sublist (unitVals b0 u)) hv
      rw [← heq]
      exact List.nodup_dedup _
    have huv : unitVals b0 u = u.map (fun s => only (b0 s)) := by
      rw [unitVals, List.filter_eq_self.mpr (fun a _ => decide_eq_true (hcards a))]
    rw [huv] at hnd
    exact hxy (List.inj_on_of_nodup_map hnd hx hy hcontra)
  have hsd : ∀ s : Cell, only (b0 s) ∈ digitsList := by
    intro s
    have hds := hσdig s
    rw [Digits_eq_list, List.mem_toFinset] at hds
    exact hds
  have hstr : asString b0 = allCells.map (fun s => digitChar (only (b0 s))) := by
    rw [asString]
    exact List.map_congr_left (fun s _ => if_pos (hcards s))
  have hnospace : ∀ ch ∈ asString b0, isPySpace ch = false := by
    rw [hstr]
    intro ch hch
    rw [List.mem_map] at hch
    obtain ⟨s, _, rfl⟩ := hch
    exact (digitChar_props _ (hsd s)).1
  have hstrip : pyStrip (asString b0) = asString b0 := pyStrip_id _ hnospace
  have hlen : (asString b0).length = 81 := by
    rw [hstr, List.length_map]
    exact List.length_finRange 81
  have hzip : allCells.zip (allCells.map (fun s => digitChar (only (b0 s))))
      = allCells.map (fun c => (c, digitChar (only (b0 c)))) := by
    have h := List.zip_map' id (fun s : Cell => digitChar (only (b0 s))) allCells
    rw [List.map_id] at h
    exact h
  have hPC : PC (fun x => only (b0 x)) blankB :=
    ⟨fun x => hσdig x, fun x => Finset.Subset.refl _⟩
  have hl : ∀ p ∈ allCells.zip (asString b0), p.2 ∈ digitChars →
      charToDigit p.2 = (fun x => only (b0 x)) p.1 := by
    rw [hstr, hzip]
    intro p hp _
    rw [List.mem_map] at hp
    obtain ⟨c, _, rfl⟩ := hp
    exact (digitChar_props _ (hsd c)).2.2
  obtain ⟨b', hb', hpc'⟩ := initLoop_safe (fun x => only (b0 x)) hσdig hdist n
    (allCells.zip (asString b0)) blankB hPC hl
    (by
      have htc : totalCands blankB = 729 := by decide
      omega)
  have hcommit := (initLoop_ok_facts n (allCells.zip (asString b0)) blankB b' hb').2.2
    loadInv_blank.1
  have hb'eq : b' = b0 := by
    funext x
    have hx : (x, digitChar (only (b0 x))) ∈ allCells.zip (asString b0) := by
      rw [hstr, hzip]
      exact List.mem_map.mpr ⟨x, List.mem_finRange x, rfl⟩
    have hxd : digitChar (only (b0 x)) ∈ digitChars := (digitChar_props _ (hsd x)).2.1
    have hcx : b' x = {charToDigit (digitChar (only (b0 x)))} := hcommit _ hx hxd
    rw [(digitChar_props _ (hsd x)).2.2] at hcx
    rw [hcx, ← hsing x]
  have hmain : fromString n (asString b0) = InitRes.ok b0 := by
    simp only [fromString]
    rw [hstrip, if_neg (not_not_intro hlen)]
    rw [hb'eq] at hb'
    exact hb'
  refine ⟨hmain, fun b' h' => ?_⟩
  rw [hmain] at h'
  injection h' with h2
  rw [← h2]
  exact ⟨hsol0, rfl⟩

/-- The digits of a fully solved grid (the canonical solution of the
spec's easy example), in row-major order. -/
def demoSol : List Nat :=
  [5,3,4,6,7,8,9,1,2,
   6,7,2,1,9,5,3,4,8,
   1,9,8,3,4,2,5,6,7,
   8,5,9,7,6,1,4,2,3,
   4,2,6,8,5,3,7,9,1,
   7,1,3,9,2,4,8,5,6,
   9,6,1,5,3,7,2,8,4,
   2,8,7,4,1,9,6,3,5,
   3,4,5,2,8,6,1,7,9]

/-- The solved board pinning every cell to its `demoSol` digit. -/
def demoB : Board := fun c => {demoSol.getD c.val 0}

/-- Witness for C9 at a concrete solved board. -/
theorem asString_roundTrip_witness :
    fromString 732 (asString demoB) = InitRes.ok demoB :=
  (asString_roundTrip 732 demoB (by decide) (by decide) (by decide)).1

end SudokuPy
